import Mathlib

/-
Verification of the Phoenix SDK order-book mirror, market simulator, event
translator and packet decoder (rust sources under phoenix-sdk-core and
crates/phoenix-sdk).

Modelling conventions:
- Rust u64 quantities are modelled as Nat.  For the operations verified here
  every u64 subtraction and addition is shown (or proved) to stay in range,
  so no wrap-around modelling is needed; where a subtraction could in
  principle truncate, a dedicated theorem proves it never does.
- The f64 values produced by the OrderbookKey.price and OrderbookValue.size
  projections are modelled as rationals.  All price values in the actual
  instantiations (u64 ticks, Decimal, f64) reach f64 through a monotone
  conversion, so comparisons of modelled prices agree with the f64
  comparisons performed by the code whenever the conversion is monotone,
  which is a hypothesis of the relevant theorems.
- A BTreeMap is modelled as an association list strictly sorted by key in
  ascending order, the order in which BTreeMap iterates.
- Rust Result/Option-bearing fallible functions are modelled with Option.
-/

namespace Phoenix

/-- Side of the book, mirroring phoenix::state::Side (Bid, Ask). -/
inductive Side : Type
  | Bid : Side
  | Ask : Side
deriving DecidableEq, Repr

/-! ## Order-book mirror (phoenix-sdk-core/src/orderbook.rs)

The struct Orderbook has two BTreeMaps (bids, asks) plus two f64 scaling
factors used only for display and vwap.  We model the maps as strictly
ascending association lists and the scaling factors as rationals. -/

structure Orderbook (K V : Type) where
  raw_base_units_per_base_lot : ℚ
  quote_units_per_raw_base_unit_per_tick : ℚ
  bids : List (K × V)
  asks : List (K × V)
deriving DecidableEq, Repr

/-- Keys of an association list. -/
def keysOf {K V : Type} (l : List (K × V)) : List K := l.map Prod.fst

/-- The representation invariant of a BTreeMap rendered as an association
list: keys strictly increase along the list. -/
def sortedKeys {K V : Type} [LinearOrder K] (l : List (K × V)) : Prop :=
  l.Pairwise (fun a b => a.1 < b.1)

/-- BTreeMap.insert: insert or replace the entry at the given key, keeping
the list strictly sorted. -/
def insertEntry {K V : Type} [LinearOrder K] (p : K) (v : V) :
    List (K × V) → List (K × V)
  | [] => [(p, v)]
  | (q, w) :: rest =>
    if p < q then (p, v) :: (q, w) :: rest
    else if p = q then (p, v) :: rest
    else (q, w) :: insertEntry p v rest

/-- BTreeMap.remove: drop the entry at the given key, if present. -/
def removeKey {K V : Type} [DecidableEq K] (p : K) :
    List (K × V) → List (K × V)
  | [] => []
  | (q, w) :: rest => if p = q then rest else (q, w) :: removeKey p rest

/-- The crossing-resolution loop of update_orders for side Bid: repeatedly
remove the smallest ask while the just-applied bid price is >= its price.
Removing the minimum repeatedly from an ascending list is dropping its
longest crossed front segment. -/
def dropCrossedAsks {K V : Type} (price : K → ℚ) (pq : ℚ)
    (l : List (K × V)) : List (K × V) :=
  l.dropWhile (fun e => decide (price e.1 ≤ pq))

/-- The crossing-resolution loop of update_orders for side Ask: repeatedly
remove the largest bid while its price is >= the just-applied ask price.
Removing the maximum repeatedly from an ascending list is dropping its
longest crossed back segment. -/
def dropCrossedBids {K V : Type} (price : K → ℚ) (pq : ℚ)
    (l : List (K × V)) : List (K × V) :=
  (l.reverse.dropWhile (fun e => decide (pq ≤ price e.1))).reverse

/-- One iteration of the for-loop body of Orderbook::update_orders: apply a
single (price, quantity) pair on the given side.  A zero-size value removes
the entry and skips crossing resolution (the continue branch); otherwise the
entry is inserted and the opposite side is uncrossed against the new price. -/
def Orderbook.apply_order {K V : Type} [LinearOrder K]
    (price : K → ℚ) (vsize : V → ℚ) (side : Side) (b : Orderbook K V)
    (p : K) (v : V) : Orderbook K V :=
  match side with
  | Side.Bid =>
    if vsize v = 0 then { b with bids := removeKey p b.bids }
    else { b with
           bids := insertEntry p v b.bids,
           asks := dropCrossedAsks price (price p) b.asks }
  | Side.Ask =>
    if vsize v = 0 then { b with asks := removeKey p b.asks }
    else { b with
           asks := insertEntry p v b.asks,
           bids := dropCrossedBids price (price p) b.bids }

/-- Orderbook::update_orders: apply the pairs in input order. -/
def Orderbook.update_orders {K V : Type} [LinearOrder K]
    (price : K → ℚ) (vsize : V → ℚ) (b : Orderbook K V) (side : Side)
    (orders : List (K × V)) : Orderbook K V :=
  orders.foldl (fun b e => Orderbook.apply_order price vsize side b e.1 e.2) b

/-- The empty order book the mirror starts from. -/
def Orderbook.empty {K V : Type} (rb qu : ℚ) : Orderbook K V :=
  { raw_base_units_per_base_lot := rb,
    quote_units_per_raw_base_unit_per_tick := qu,
    bids := [], asks := [] }

/-- A whole run: a sequence of update_orders calls applied from a start
book.  Each call carries a side and a batch of (price, quantity) pairs. -/
def Orderbook.apply_calls {K V : Type} [LinearOrder K]
    (price : K → ℚ) (vsize : V → ℚ) (b : Orderbook K V)
    (calls : List (Side × List (K × V))) : Orderbook K V :=
  calls.foldl (fun b c => Orderbook.update_orders price vsize b c.1 c.2) b

/-- Orderbook::get_bids: entries best-to-worst, i.e. descending by key. -/
def Orderbook.get_bids {K V : Type} (b : Orderbook K V) : List (K × V) :=
  b.bids.reverse

/-- Orderbook::get_asks: entries best-to-worst, i.e. ascending by key. -/
def Orderbook.get_asks {K V : Type} (b : Orderbook K V) : List (K × V) :=
  b.asks

/-- The no-crossed-book property: every bid price is strictly below every
ask price (so in particular max bid price < min ask price whenever both
sides are non-empty). -/
def Orderbook.uncrossed {K V : Type} (price : K → ℚ)
    (b : Orderbook K V) : Prop :=
  ∀ x ∈ b.bids, ∀ y ∈ b.asks, price x.1 < price y.1

/-- The pair (p, quantity-with-nonzero-size) does not cross the opposite
side of the book. -/
def Orderbook.pair_non_crossing {K V : Type} (price : K → ℚ)
    (b : Orderbook K V) (side : Side) (p : K) : Prop :=
  match side with
  | Side.Bid => ∀ y ∈ b.asks, price p < price y.1
  | Side.Ask => ∀ y ∈ b.bids, price y.1 < price p

/-! ## VWAP (Orderbook::vwap in phoenix-sdk-core/src/orderbook.rs)

vwap zips the top `levels` bids (descending) with the top `levels` asks
(ascending) and returns num / (denom * quote_units_per_raw_base_unit_per_tick)
as an f64.  We model the numerator and denominator exactly as rationals; for
finite operands an f64 quotient is non-finite exactly when the denominator
is zero (0/0 is NaN, x/0 is an infinity), so finiteness is modelled as the
denominator being non-zero (f64 overflow/underflow is not modelled). -/

/-- The sum the code computes as the vwap denominator. -/
def Orderbook.vwap_denom {K V : Type} (vsize : V → ℚ)
    (b : Orderbook K V) (levels : ℕ) : ℚ :=
  (((b.get_bids.take levels).zip (b.get_asks.take levels)).map
    (fun e => vsize e.1.2 + vsize e.2.2)).sum

/-- The sum the code computes as the vwap numerator. -/
def Orderbook.vwap_num {K V : Type} (price : K → ℚ) (vsize : V → ℚ)
    (b : Orderbook K V) (levels : ℕ) : ℚ :=
  (((b.get_bids.take levels).zip (b.get_asks.take levels)).map
    (fun e => vsize e.2.2 * price e.1.1 + vsize e.1.2 * price e.2.1)).sum

/-- The rational value of vwap when it is finite. -/
def Orderbook.vwap {K V : Type} (price : K → ℚ) (vsize : V → ℚ)
    (b : Orderbook K V) (levels : ℕ) : ℚ :=
  Orderbook.vwap_num price vsize b levels /
    (Orderbook.vwap_denom vsize b levels *
      b.quote_units_per_raw_base_unit_per_tick)

/-- The f64 the code divides by is zero exactly when the result is
non-finite (NaN for 0/0, an infinity otherwise), finite operands assumed. -/
def Orderbook.vwap_is_finite {K V : Type} (vsize : V → ℚ)
    (b : Orderbook K V) (levels : ℕ) : Prop :=
  Orderbook.vwap_denom vsize b levels *
    b.quote_units_per_raw_base_unit_per_tick ≠ 0

/-! ## Market simulator (crates/phoenix-sdk/src/ladder_utils.rs)

Ladder and LadderOrder mirror phoenix::state::markets with u64 fields. -/

structure LadderOrder where
  price_in_ticks : ℕ
  size_in_base_lots : ℕ
deriving DecidableEq, Repr

structure Ladder where
  bids : List LadderOrder
  asks : List LadderOrder
deriving DecidableEq, Repr

structure SimulationSummaryInLots where
  base_lots_filled : ℕ
  quote_lots_filled : ℕ
deriving DecidableEq, Repr

/-- The loop of sell_quote: walk the asks carrying
(remaining_quote_lots, base_lots); break when the remaining budget is zero.
Nat division models the u64 division (ladder_utils.rs line 25). -/
def sell_quote_go : List LadderOrder → ℕ → ℕ → ℕ × ℕ
  | [], remaining, base => (remaining, base)
  | ask :: rest, remaining, base =>
    if remaining = 0 then (remaining, base)
    else
      let max_base_lots_you_can_buy := remaining / ask.price_in_ticks
      let amount_lots_to_buy :=
        min max_base_lots_you_can_buy ask.size_in_base_lots
      sell_quote_go rest
        (remaining - amount_lots_to_buy * ask.price_in_ticks)
        (base + amount_lots_to_buy)

/-- MarketSimulator::sell_quote. -/
def Ladder.sell_quote (l : Ladder) (num_lots_quote : ℕ) :
    SimulationSummaryInLots :=
  let st := sell_quote_go l.asks num_lots_quote 0
  { base_lots_filled := st.2, quote_lots_filled := num_lots_quote - st.1 }

/-- The loop of sell_base: walk the bids carrying
(remaining_base_lots, quote_lots); break when the remaining budget is zero. -/
def sell_base_go : List LadderOrder → ℕ → ℕ → ℕ × ℕ
  | [], remaining, quote => (remaining, quote)
  | bid :: rest, remaining, quote =>
    if remaining = 0 then (remaining, quote)
    else
      let lots_to_fill := min remaining bid.size_in_base_lots
      sell_base_go rest (remaining - lots_to_fill)
        (quote + lots_to_fill * bid.price_in_ticks)

/-- MarketSimulator::sell_base. -/
def Ladder.sell_base (l : Ladder) (num_lots_base : ℕ) :
    SimulationSummaryInLots :=
  let st := sell_base_go l.bids num_lots_base 0
  { base_lots_filled := num_lots_base - st.1, quote_lots_filled := st.2 }

/-- MarketSimulator::simulate_market_sell: Side::Bid routes to the
quote-budgeted walk over the asks, Side::Ask to the base-budgeted walk over
the bids. -/
def Ladder.simulate_market_sell (l : Ladder) (side : Side)
    (size_in_lots : ℕ) : SimulationSummaryInLots :=
  match side with
  | Side.Bid => l.sell_quote size_in_lots
  | Side.Ask => l.sell_base size_in_lots

/-- True when some iteration of the sell_quote loop would evaluate the u64
division remaining_quote_lots / ask.price_in_ticks with a zero divisor
while the remaining budget is still positive (a Rust panic). -/
def sell_quote_divides_by_zero : List LadderOrder → ℕ → Bool
  | [], _ => false
  | ask :: rest, remaining =>
    if remaining = 0 then false
    else if ask.price_in_ticks = 0 then true
    else
      let amt := min (remaining / ask.price_in_ticks) ask.size_in_base_lots
      sell_quote_divides_by_zero rest (remaining - amt * ask.price_in_ticks)

/-- True when some u64 subtraction in the sell_quote loop would underflow
(the subtrahend exceeding the remaining budget). -/
def sell_quote_underflows : List LadderOrder → ℕ → Bool
  | [], _ => false
  | ask :: rest, remaining =>
    if remaining = 0 then false
    else
      let amt := min (remaining / ask.price_in_ticks) ask.size_in_base_lots
      decide (remaining < amt * ask.price_in_ticks) ||
        sell_quote_underflows rest (remaining - amt * ask.price_in_ticks)

/-- True when some u64 subtraction in the sell_base loop would underflow. -/
def sell_base_underflows : List LadderOrder → ℕ → Bool
  | [], _ => false
  | bid :: rest, remaining =>
    if remaining = 0 then false
    else
      let fill := min remaining bid.size_in_base_lots
      decide (remaining < fill) || sell_base_underflows rest (remaining - fill)

/-- The reference fixture ladder of ladder_utils.rs (get_sol_usdc_ladder). -/
def get_sol_usdc_ladder : Ladder :=
  { bids := [ { price_in_ticks := 0x58bf, size_in_base_lots := 0x043f },
              { price_in_ticks := 0x58b9, size_in_base_lots := 0x043f },
              { price_in_ticks := 0x58a7, size_in_base_lots := 0x043f } ],
    asks := [ { price_in_ticks := 0x58c0, size_in_base_lots := 0x3036 },
              { price_in_ticks := 0x58c0, size_in_base_lots := 0x01e1ff },
              { price_in_ticks := 0x58c0, size_in_base_lots := 0x02a261 } ] }

/-! ## Event translator (SDKClientCore::parse_phoenix_events in
phoenix-sdk-core/src/sdk_client_core.rs)

The rust function takes a list of raw byte records; each record is a borsh
header followed by a borsh vector of tagged sub-events.  The claims settled
here concern the post-decode control flow (per-record iteration, the
trade_direction local, the mapping to MarketEventDetails), so the model
takes records whose header and sub-events are already structurally decoded;
the borsh layer is injective on well-formed records and does not affect the
grouping behaviour under study.  Pubkeys and signatures are modelled as
natural-number identifiers. -/

structure AuditLogHeader where
  market : ℕ
  sequence_number : ℕ
  slot : ℕ
  timestamp : ℤ
  signer : ℕ
deriving DecidableEq, Repr

/-- The tagged sub-record variants of PhoenixMarketEvent that
parse_phoenix_events matches on.  Unknown stands for any variant reaching
the catch-all arm, which logs and skips it. -/
inductive PhoenixMarketEvent : Type
  | Fill (index maker_id order_sequence_number price_in_ticks
      base_lots_filled base_lots_remaining : ℕ)
  | Place (index order_sequence_number client_order_id price_in_ticks
      base_lots_placed : ℕ)
  | Reduce (index order_sequence_number price_in_ticks base_lots_removed
      base_lots_remaining : ℕ)
  | Evict (index maker_id order_sequence_number price_in_ticks
      base_lots_evicted : ℕ)
  | FillSummary (index client_order_id total_base_lots_filled
      total_quote_lots_filled total_fee_in_quote_lots : ℕ)
  | Fee (index fees_collected_in_quote_lots : ℕ)
  | TimeInForce (index order_sequence_number last_valid_slot
      last_valid_unix_timestamp_in_seconds : ℕ)
  | ExpiredOrder (index maker_id order_sequence_number price_in_ticks
      base_lots_removed : ℕ)
  | Unknown
deriving DecidableEq, Repr

structure FillDetails where
  order_sequence_number : ℕ
  maker : ℕ
  taker : ℕ
  price_in_ticks : ℕ
  base_lots_filled : ℕ
  base_lots_remaining : ℕ
  side_filled : Side
  is_full_fill : Bool
deriving DecidableEq, Repr

structure PlaceDetails where
  order_sequence_number : ℕ
  client_order_id : ℕ
  maker : ℕ
  price_in_ticks : ℕ
  base_lots_placed : ℕ
deriving DecidableEq, Repr

structure ReduceDetails where
  order_sequence_number : ℕ
  maker : ℕ
  price_in_ticks : ℕ
  base_lots_removed : ℕ
  base_lots_remaining : ℕ
  is_full_cancel : Bool
deriving DecidableEq, Repr

structure EvictDetails where
  order_sequence_number : ℕ
  maker : ℕ
  price_in_ticks : ℕ
  base_lots_evicted : ℕ
deriving DecidableEq, Repr

structure FillSummaryDetails where
  client_order_id : ℕ
  total_base_filled : ℕ
  total_quote_filled_including_fees : ℕ
  total_quote_fees : ℕ
  trade_direction : ℤ
deriving DecidableEq, Repr

structure TimeInForceDetails where
  order_sequence_number : ℕ
  last_valid_slot : ℕ
  last_valid_unix_timestamp_in_seconds : ℕ
deriving DecidableEq, Repr

inductive MarketEventDetails : Type
  | Fill (f : FillDetails)
  | Place (p : PlaceDetails)
  | Evict (e : EvictDetails)
  | Reduce (r : ReduceDetails)
  | FillSummary (s : FillSummaryDetails)
  | Fee (quote_atoms : ℕ)
  | TimeInForce (t : TimeInForceDetails)
deriving DecidableEq, Repr

structure PhoenixEvent where
  market : ℕ
  sequence_number : ℕ
  slot : ℕ
  timestamp : ℤ
  signature : ℕ
  signer : ℕ
  event_index : ℕ
  details : MarketEventDetails
deriving DecidableEq, Repr

/-- Modelled from the spec: Side::from_order_sequence_number lives in the
external phoenix crate (only its call sites are in this repository); the
spec says the side is derived from the sequence-number parity, even
denoting an originally-bid order. -/
def Side.from_order_sequence_number (n : ℕ) : Side :=
  if n % 2 = 0 then Side.Bid else Side.Ask

/-- The common header-derived fields every pushed PhoenixEvent carries. -/
def mkPhoenixEvent (sig : ℕ) (header : AuditLogHeader) (index : ℕ)
    (details : MarketEventDetails) : PhoenixEvent :=
  { market := header.market,
    sequence_number := header.sequence_number,
    slot := header.slot,
    timestamp := header.timestamp,
    signature := sig,
    signer := header.signer,
    event_index := index,
    details := details }

/-- The body of the inner match of parse_phoenix_events: threads the
trade_direction local (None until the first Fill of the record) and the
output list through one sub-event. -/
def processPhoenixEvent (base_lot_size quote_lot_size sig : ℕ)
    (header : AuditLogHeader) (st : Option ℤ × List PhoenixEvent)
    (ev : PhoenixMarketEvent) : Option ℤ × List PhoenixEvent :=
  match ev with
  | PhoenixMarketEvent.Fill index maker_id order_sequence_number
      price_in_ticks base_lots_filled base_lots_remaining =>
    let side_filled := Side.from_order_sequence_number order_sequence_number
    let out := st.2 ++ [mkPhoenixEvent sig header index
      (MarketEventDetails.Fill
        { order_sequence_number := order_sequence_number,
          maker := maker_id,
          taker := header.signer,
          price_in_ticks := price_in_ticks,
          base_lots_filled := base_lots_filled,
          base_lots_remaining := base_lots_remaining,
          side_filled := side_filled,
          is_full_fill := decide (base_lots_remaining = 0) })]
    let dir := match st.1 with
      | some d => some d
      | none => match side_filled with
        | Side.Bid => some (-1 : ℤ)
        | Side.Ask => some (1 : ℤ)
    (dir, out)
  | PhoenixMarketEvent.Reduce index order_sequence_number price_in_ticks
      base_lots_removed base_lots_remaining =>
    (st.1, st.2 ++ [mkPhoenixEvent sig header index
      (MarketEventDetails.Reduce
        { order_sequence_number := order_sequence_number,
          maker := header.signer,
          price_in_ticks := price_in_ticks,
          base_lots_removed := base_lots_removed,
          base_lots_remaining := base_lots_remaining,
          is_full_cancel := decide (base_lots_remaining = 0) })])
  | PhoenixMarketEvent.Place index order_sequence_number client_order_id
      price_in_ticks base_lots_placed =>
    (st.1, st.2 ++ [mkPhoenixEvent sig header index
      (MarketEventDetails.Place
        { order_sequence_number := order_sequence_number,
          client_order_id := client_order_id,
          maker := header.signer,
          price_in_ticks := price_in_ticks,
          base_lots_placed := base_lots_placed })])
  | PhoenixMarketEvent.Evict index maker_id order_sequence_number
      price_in_ticks base_lots_evicted =>
    (st.1, st.2 ++ [mkPhoenixEvent sig header index
      (MarketEventDetails.Evict
        { order_sequence_number := order_sequence_number,
          maker := maker_id,
          price_in_ticks := price_in_ticks,
          base_lots_evicted := base_lots_evicted })])
  | PhoenixMarketEvent.FillSummary index client_order_id
      total_base_lots_filled total_quote_lots_filled
      total_fee_in_quote_lots =>
    (st.1, st.2 ++ [mkPhoenixEvent sig header index
      (MarketEventDetails.FillSummary
        { client_order_id := client_order_id,
          total_base_filled := total_base_lots_filled * base_lot_size,
          total_quote_filled_including_fees :=
            total_quote_lots_filled * quote_lot_size,
          total_quote_fees := total_fee_in_quote_lots * quote_lot_size,
          trade_direction := st.1.getD 0 })])
  | PhoenixMarketEvent.Fee index fees_collected_in_quote_lots =>
    (st.1, st.2 ++ [mkPhoenixEvent sig header index
      (MarketEventDetails.Fee (fees_collected_in_quote_lots * quote_lot_size))])
  | PhoenixMarketEvent.TimeInForce index order_sequence_number
      last_valid_slot last_valid_unix_timestamp_in_seconds =>
    (st.1, st.2 ++ [mkPhoenixEvent sig header index
      (MarketEventDetails.TimeInForce
        { order_sequence_number := order_sequence_number,
          last_valid_slot := last_valid_slot,
          last_valid_unix_timestamp_in_seconds :=
            last_valid_unix_timestamp_in_seconds })])
  | PhoenixMarketEvent.ExpiredOrder index maker_id order_sequence_number
      price_in_ticks base_lots_removed =>
    (st.1, st.2 ++ [mkPhoenixEvent sig header index
      (MarketEventDetails.Reduce
        { order_sequence_number := order_sequence_number,
          maker := maker_id,
          price_in_ticks := price_in_ticks,
          base_lots_removed := base_lots_removed,
          base_lots_remaining := 0,
          is_full_cancel := true })])
  | PhoenixMarketEvent.Unknown => st

/-- One iteration of the outer record loop: trade_direction starts at None
for each raw record, and the record's sub-events are folded in order. -/
def processRecord (base_lot_size quote_lot_size sig : ℕ)
    (record : AuditLogHeader × List PhoenixMarketEvent) : List PhoenixEvent :=
  (record.2.foldl
    (processPhoenixEvent base_lot_size quote_lot_size sig record.1)
    (none, [])).2

/-- SDKClientCore::parse_phoenix_events: raw records are handled one after
the other, each appending its events to the single output vector. -/
def parse_phoenix_events (base_lot_size quote_lot_size sig : ℕ)
    (records : List (AuditLogHeader × List PhoenixMarketEvent)) :
    List PhoenixEvent :=
  records.foldl
    (fun acc r => acc ++ processRecord base_lot_size quote_lot_size sig r) []

/-- Merge one record into a list of groups, appending its sub-events to the
existing group with the same header identity or opening a new group. -/
def addToGroups (groups : List (AuditLogHeader × List PhoenixMarketEvent))
    (r : AuditLogHeader × List PhoenixMarketEvent) :
    List (AuditLogHeader × List PhoenixMarketEvent) :=
  match groups with
  | [] => [r]
  | (h, evs) :: rest =>
    if h = r.1 then (h, evs ++ r.2) :: rest
    else (h, evs) :: addToGroups rest r

/-- Modelled from the spec: the grouping step the spec describes, with no
counterpart in the source.  Raw records sharing one logical header identity
(the signature is constant across one call) are concatenated into a single
logical batch, in first-occurrence order, before per-record decoding. -/
def groupByHeader (records : List (AuditLogHeader × List PhoenixMarketEvent)) :
    List (AuditLogHeader × List PhoenixMarketEvent) :=
  records.foldl addToGroups []

/-- Modelled from the spec: the event translation the claim describes,
which first merges raw records by header identity and then processes each
merged batch with a single trade_direction local. -/
def spec_parse_phoenix_events (base_lot_size quote_lot_size sig : ℕ)
    (records : List (AuditLogHeader × List PhoenixMarketEvent)) :
    List PhoenixEvent :=
  parse_phoenix_events base_lot_size quote_lot_size sig
    (groupByHeader records)

/-! ## Version-skewed packet decoding
(phoenix-sdk-core/src/packet_decoder.rs)

The packets are deserialized with borsh: fixed-width little-endian
integers, single-byte bools and enum tags, Option encoded as a 0/1 tag
byte, and try_from_slice failing unless the input is consumed exactly. -/

abbrev Byte := Fin 256

/-- Little-endian value of a byte string. -/
def leValue (bs : List Byte) : ℕ :=
  bs.foldr (fun b acc => b.val + 256 * acc) 0

/-- Read an n-byte little-endian unsigned integer. -/
def readNatLE (n : ℕ) (l : List Byte) : Option (ℕ × List Byte) :=
  if n ≤ l.length then some (leValue (l.take n), l.drop n) else none

def readU64 (l : List Byte) : Option (ℕ × List Byte) := readNatLE 8 l

def readU128 (l : List Byte) : Option (ℕ × List Byte) := readNatLE 16 l

/-- Borsh bool: one byte, 0 or 1, anything else is a decode error. -/
def readBool : List Byte → Option (Bool × List Byte)
  | [] => none
  | b :: rest =>
    if b.val = 0 then some (false, rest)
    else if b.val = 1 then some (true, rest) else none

/-- Borsh enum tag for phoenix::state::Side (Bid = 0, Ask = 1). -/
def readSide : List Byte → Option (Side × List Byte)
  | [] => none
  | b :: rest =>
    if b.val = 0 then some (Side.Bid, rest)
    else if b.val = 1 then some (Side.Ask, rest) else none

/-- phoenix::state::SelfTradeBehavior (external crate; three variants in
declaration order Abort, CancelProvide, DecrementTake). -/
inductive SelfTradeBehavior : Type
  | Abort : SelfTradeBehavior
  | CancelProvide : SelfTradeBehavior
  | DecrementTake : SelfTradeBehavior
deriving DecidableEq, Repr

def readSelfTradeBehavior : List Byte → Option (SelfTradeBehavior × List Byte)
  | [] => none
  | b :: rest =>
    if b.val = 0 then some (SelfTradeBehavior.Abort, rest)
    else if b.val = 1 then some (SelfTradeBehavior.CancelProvide, rest)
    else if b.val = 2 then some (SelfTradeBehavior.DecrementTake, rest)
    else none

/-- Borsh Option of u64: tag byte 0 is None, 1 is Some followed by the
payload, anything else is a decode error. -/
def readOptionU64 : List Byte → Option (Option ℕ × List Byte)
  | [] => none
  | b :: rest =>
    if b.val = 0 then some (none, rest)
    else if b.val = 1 then (readU64 rest).map (fun r => (some r.1, r.2))
    else none

structure LimitPacket where
  side : Side
  price_in_ticks : ℕ
  num_base_lots : ℕ
  self_trade_behavior : SelfTradeBehavior
  match_limit : Option ℕ
  client_order_id : ℕ
  use_only_deposited_funds : Bool
  last_valid_slot : Option ℕ
  last_valid_unix_timestamp_in_seconds : Option ℕ
deriving DecidableEq, Repr

structure DeprecatedLimitPacket where
  side : Side
  price_in_ticks : ℕ
  num_base_lots : ℕ
  self_trade_behavior : SelfTradeBehavior
  match_limit : Option ℕ
  client_order_id : ℕ
  use_only_deposited_funds : Bool
deriving DecidableEq, Repr

structure PostOnlyPacket where
  side : Side
  price_in_ticks : ℕ
  num_base_lots : ℕ
  client_order_id : ℕ
  reject_post_only : Bool
  use_only_deposited_funds : Bool
  last_valid_slot : Option ℕ
  last_valid_unix_timestamp_in_seconds : Option ℕ
deriving DecidableEq, Repr

structure DeprecatedPostOnlyPacket where
  side : Side
  price_in_ticks : ℕ
  num_base_lots : ℕ
  client_order_id : ℕ
  reject_post_only : Bool
  use_only_deposited_funds : Bool
deriving DecidableEq, Repr

/-- LimitPacket::try_from_slice (borsh field order, full consumption). -/
def deserializeLimitPacket (l : List Byte) : Option LimitPacket := do
  let (side, l) ← readSide l
  let (price_in_ticks, l) ← readU64 l
  let (num_base_lots, l) ← readU64 l
  let (self_trade_behavior, l) ← readSelfTradeBehavior l
  let (match_limit, l) ← readOptionU64 l
  let (client_order_id, l) ← readU128 l
  let (use_only_deposited_funds, l) ← readBool l
  let (last_valid_slot, l) ← readOptionU64 l
  let (last_valid_unix_timestamp_in_seconds, l) ← readOptionU64 l
  if l = [] then
    some { side := side,
           price_in_ticks := price_in_ticks,
           num_base_lots := num_base_lots,
           self_trade_behavior := self_trade_behavior,
           match_limit := match_limit,
           client_order_id := client_order_id,
           use_only_deposited_funds := use_only_deposited_funds,
           last_valid_slot := last_valid_slot,
           last_valid_unix_timestamp_in_seconds :=
             last_valid_unix_timestamp_in_seconds }
  else none

/-- DeprecatedLimitPacket::try_from_slice. -/
def deserializeDeprecatedLimitPacket (l : List Byte) :
    Option DeprecatedLimitPacket := do
  let (side, l) ← readSide l
  let (price_in_ticks, l) ← readU64 l
  let (num_base_lots, l) ← readU64 l
  let (self_trade_behavior, l) ← readSelfTradeBehavior l
  let (match_limit, l) ← readOptionU64 l
  let (client_order_id, l) ← readU128 l
  let (use_only_deposited_funds, l) ← readBool l
  if l = [] then
    some { side := side,
           price_in_ticks := price_in_ticks,
           num_base_lots := num_base_lots,
           self_trade_behavior := self_trade_behavior,
           match_limit := match_limit,
           client_order_id := client_order_id,
           use_only_deposited_funds := use_only_deposited_funds }
  else none

/-- PostOnlyPacket::try_from_slice. -/
def deserializePostOnlyPacket (l : List Byte) : Option PostOnlyPacket := do
  let (side, l) ← readSide l
  let (price_in_ticks, l) ← readU64 l
  let (num_base_lots, l) ← readU64 l
  let (client_order_id, l) ← readU128 l
  let (reject_post_only, l) ← readBool l
  let (use_only_deposited_funds, l) ← readBool l
  let (last_valid_slot, l) ← readOptionU64 l
  let (last_valid_unix_timestamp_in_seconds, l) ← readOptionU64 l
  if l = [] then
    some { side := side,
           price_in_ticks := price_in_ticks,
           num_base_lots := num_base_lots,
           client_order_id := client_order_id,
           reject_post_only := reject_post_only,
           use_only_deposited_funds := use_only_deposited_funds,
           last_valid_slot := last_valid_slot,
           last_valid_unix_timestamp_in_seconds :=
             last_valid_unix_timestamp_in_seconds }
  else none

/-- DeprecatedPostOnlyPacket::try_from_slice. -/
def deserializeDeprecatedPostOnlyPacket (l : List Byte) :
    Option DeprecatedPostOnlyPacket := do
  let (side, l) ← readSide l
  let (price_in_ticks, l) ← readU64 l
  let (num_base_lots, l) ← readU64 l
  let (client_order_id, l) ← readU128 l
  let (reject_post_only, l) ← readBool l
  let (use_only_deposited_funds, l) ← readBool l
  if l = [] then
    some { side := side,
           price_in_ticks := price_in_ticks,
           num_base_lots := num_base_lots,
           client_order_id := client_order_id,
           reject_post_only := reject_post_only,
           use_only_deposited_funds := use_only_deposited_funds }
  else none

/-- Upgrade of a deprecated limit packet: same logical fields, the two new
expiry fields unset. -/
def upgradeDeprecatedLimit (d : DeprecatedLimitPacket) : LimitPacket :=
  { side := d.side,
    price_in_ticks := d.price_in_ticks,
    num_base_lots := d.num_base_lots,
    self_trade_behavior := d.self_trade_behavior,
    match_limit := d.match_limit,
    client_order_id := d.client_order_id,
    use_only_deposited_funds := d.use_only_deposited_funds,
    last_valid_slot := none,
    last_valid_unix_timestamp_in_seconds := none }

/-- Upgrade of a deprecated post-only packet. -/
def upgradeDeprecatedPostOnly (d : DeprecatedPostOnlyPacket) : PostOnlyPacket :=
  { side := d.side,
    price_in_ticks := d.price_in_ticks,
    num_base_lots := d.num_base_lots,
    client_order_id := d.client_order_id,
    reject_post_only := d.reject_post_only,
    use_only_deposited_funds := d.use_only_deposited_funds,
    last_valid_slot := none,
    last_valid_unix_timestamp_in_seconds := none }

/-- decode_limit_packet_data: split off the OrderPacketEnum tag byte
(PostOnly = 0, Limit = 1, anything else a decode error), then try the
current schema and fall back to the deprecated one. -/
def decode_limit_packet_data (bytes : List Byte) : Option LimitPacket :=
  match bytes with
  | [] => none
  | tag :: rest =>
    if tag.val = 1 then
      match deserializeLimitPacket rest with
      | some packet => some packet
      | none =>
        (deserializeDeprecatedLimitPacket rest).map upgradeDeprecatedLimit
    else none

/-- decode_post_only_packet_data. -/
def decode_post_only_packet_data (bytes : List Byte) : Option PostOnlyPacket :=
  match bytes with
  | [] => none
  | tag :: rest =>
    if tag.val = 0 then
      match deserializePostOnlyPacket rest with
      | some packet => some packet
      | none =>
        (deserializeDeprecatedPostOnlyPacket rest).map upgradeDeprecatedPostOnly
    else none

/-! ## Simulator lemmas -/

theorem sell_quote_go_fst_le (asks : List LadderOrder) :
    ∀ r b : ℕ, (sell_quote_go asks r b).1 ≤ r := by
  induction asks with
  | nil => intro r b; simp [sell_quote_go]
  | cons a t ih =>
    intro r b
    by_cases hr : r = 0
    · simp [sell_quote_go, hr]
    · simp only [sell_quote_go, if_neg hr]
      exact le_trans (ih _ _) (Nat.sub_le _ _)

theorem sell_quote_go_snd_ge (asks : List LadderOrder) :
    ∀ r b : ℕ, b ≤ (sell_quote_go asks r b).2 := by
  induction asks with
  | nil => intro r b; simp [sell_quote_go]
  | cons a t ih =>
    intro r b
    by_cases hr : r = 0
    · simp [sell_quote_go, hr]
    · simp only [sell_quote_go, if_neg hr]
      exact le_trans (Nat.le_add_right _ _) (ih _ _)

theorem sell_quote_go_spent_le (asks : List LadderOrder) :
    ∀ r b : ℕ, r - (sell_quote_go asks r b).1 ≤
      (asks.map (fun a => a.size_in_base_lots * a.price_in_ticks)).sum := by
  induction asks with
  | nil => intro r b; simp [sell_quote_go]
  | cons a t ih =>
    intro r b
    by_cases hr : r = 0
    · simp [sell_quote_go, hr]
    · simp only [sell_quote_go, if_neg hr, List.map_cons, List.sum_cons]
      set amt := min (r / a.price_in_ticks) a.size_in_base_lots with hamt
      have h1 : amt * a.price_in_ticks ≤ r := by
        calc amt * a.price_in_ticks
            ≤ r / a.price_in_ticks * a.price_in_ticks :=
              Nat.mul_le_mul_right _ (min_le_left _ _)
          _ ≤ r := Nat.div_mul_le_self _ _
      have h2 : amt * a.price_in_ticks ≤
          a.size_in_base_lots * a.price_in_ticks :=
        Nat.mul_le_mul_right _ (min_le_right _ _)
      have h3 := ih (r - amt * a.price_in_ticks) (b + amt)
      have h4 := sell_quote_go_fst_le t (r - amt * a.price_in_ticks) (b + amt)
      omega

theorem sell_quote_go_base_le (asks : List LadderOrder) :
    ∀ r b : ℕ, (sell_quote_go asks r b).2 - b ≤
      (asks.map LadderOrder.size_in_base_lots).sum := by
  induction asks with
  | nil => intro r b; simp [sell_quote_go]
  | cons a t ih =>
    intro r b
    by_cases hr : r = 0
    · simp [sell_quote_go, hr]
    · simp only [sell_quote_go, if_neg hr, List.map_cons, List.sum_cons]
      set amt := min (r / a.price_in_ticks) a.size_in_base_lots with hamt
      have h1 : amt ≤ a.size_in_base_lots := min_le_right _ _
      have h2 := ih (r - amt * a.price_in_ticks) (b + amt)
      have h3 := sell_quote_go_snd_ge t (r - amt * a.price_in_ticks) (b + amt)
      omega

theorem sell_base_go_fst_le (bids : List LadderOrder) :
    ∀ r q : ℕ, (sell_base_go bids r q).1 ≤ r := by
  induction bids with
  | nil => intro r q; simp [sell_base_go]
  | cons a t ih =>
    intro r q
    by_cases hr : r = 0
    · simp [sell_base_go, hr]
    · simp only [sell_base_go, if_neg hr]
      exact le_trans (ih _ _) (Nat.sub_le _ _)

theorem sell_base_go_snd_ge (bids : List LadderOrder) :
    ∀ r q : ℕ, q ≤ (sell_base_go bids r q).2 := by
  induction bids with
  | nil => intro r q; simp [sell_base_go]
  | cons a t ih =>
    intro r q
    by_cases hr : r = 0
    · simp [sell_base_go, hr]
    · simp only [sell_base_go, if_neg hr]
      exact le_trans (Nat.le_add_right _ _) (ih _ _)

theorem sell_base_go_spent_le (bids : List LadderOrder) :
    ∀ r q : ℕ, r - (sell_base_go bids r q).1 ≤
      (bids.map LadderOrder.size_in_base_lots).sum := by
  induction bids with
  | nil => intro r q; simp [sell_base_go]
  | cons a t ih =>
    intro r q
    by_cases hr : r = 0
    · simp [sell_base_go, hr]
    · simp only [sell_base_go, if_neg hr, List.map_cons, List.sum_cons]
      set fill := min r a.size_in_base_lots with hfill
      have h1 : fill ≤ a.size_in_base_lots := min_le_right _ _
      have h2 := ih (r - fill) (q + fill * a.price_in_ticks)
      have h3 := sell_base_go_fst_le t (r - fill) (q + fill * a.price_in_ticks)
      omega

theorem sell_quote_underflows_false (asks : List LadderOrder) :
    ∀ r : ℕ, sell_quote_underflows asks r = false := by
  induction asks with
  | nil => intro r; simp [sell_quote_underflows]
  | cons a t ih =>
    intro r
    by_cases hr : r = 0
    · simp [sell_quote_underflows, hr]
    · have h1 : min (r / a.price_in_ticks) a.size_in_base_lots *
          a.price_in_ticks ≤ r := by
        calc min (r / a.price_in_ticks) a.size_in_base_lots *
              a.price_in_ticks
            ≤ r / a.price_in_ticks * a.price_in_ticks :=
              Nat.mul_le_mul_right _ (min_le_left _ _)
          _ ≤ r := Nat.div_mul_le_self _ _
      simp [sell_quote_underflows, hr, ih, Nat.not_lt.mpr h1]

theorem sell_base_underflows_false (bids : List LadderOrder) :
    ∀ r : ℕ, sell_base_underflows bids r = false := by
  induction bids with
  | nil => intro r; simp [sell_base_underflows]
  | cons a t ih =>
    intro r
    by_cases hr : r = 0
    · simp [sell_base_underflows, hr]
    · simp [sell_base_underflows, hr, ih, Nat.not_lt.mpr (min_le_left r _)]

theorem sell_quote_divides_by_zero_false (asks : List LadderOrder)
    (hpos : ∀ a ∈ asks, 0 < a.price_in_ticks) :
    ∀ r : ℕ, sell_quote_divides_by_zero asks r = false := by
  induction asks with
  | nil => intro r; simp [sell_quote_divides_by_zero]
  | cons a t ih =>
    intro r
    have hhead : 0 < a.price_in_ticks := hpos a (List.mem_cons_self a t)
    have htail : ∀ x ∈ t, 0 < x.price_in_ticks :=
      fun x hx => hpos x (List.mem_cons_of_mem a hx)
    by_cases hr : r = 0
    · simp [sell_quote_divides_by_zero, hr]
    · simp [sell_quote_divides_by_zero, hr, Nat.pos_iff_ne_zero.mp hhead,
        ih htail]

/-- A sorted-by-price ask walk whose remaining budget is below every level
price buys nothing further and leaves the state unchanged. -/
theorem sell_quote_go_stuck (asks : List LadderOrder) :
    ∀ r b : ℕ, (∀ a ∈ asks, r < a.price_in_ticks) →
      sell_quote_go asks r b = (r, b) := by
  induction asks with
  | nil => intro r b _; simp [sell_quote_go]
  | cons a t ih =>
    intro r b hlt
    have hhead : r < a.price_in_ticks := hlt a (List.mem_cons_self a t)
    have htail : ∀ x ∈ t, r < x.price_in_ticks :=
      fun x hx => hlt x (List.mem_cons_of_mem a hx)
    by_cases hr : r = 0
    · simp [sell_quote_go, hr]
    · have hdiv : r / a.price_in_ticks = 0 := Nat.div_eq_of_lt hhead
      simp only [sell_quote_go, if_neg hr, hdiv, Nat.zero_min, Nat.zero_mul,
        Nat.sub_zero, Nat.add_zero]
      exact ih r b htail

/-- Monotonicity of the base leg of the quote-budgeted walk, for ladders
whose ask prices do not decrease along the walk. -/
theorem sell_quote_go_base_mono (asks : List LadderOrder)
    (hs : asks.Pairwise
      (fun a b => a.price_in_ticks ≤ b.price_in_ticks)) :
    ∀ r1 r2 b1 b2 : ℕ, r1 ≤ r2 → b1 ≤ b2 →
      (sell_quote_go asks r1 b1).2 ≤ (sell_quote_go asks r2 b2).2 := by
  induction asks with
  | nil => intro r1 r2 b1 b2 _ hb; simpa [sell_quote_go] using hb
  | cons a t ih =>
    intro r1 r2 b1 b2 hr hb
    rw [List.pairwise_cons] at hs
    obtain ⟨hhead, htail⟩ := hs
    by_cases hr1 : r1 = 0
    · have hL : sell_quote_go (a :: t) r1 b1 = (r1, b1) := by
        simp [sell_quote_go, hr1]
      have hge := sell_quote_go_snd_ge (a :: t) r2 b2
      rw [hL]
      exact le_trans hb hge
    · have hr2 : r2 ≠ 0 := fun h => hr1 (Nat.le_zero.mp (h ▸ hr))
      by_cases hp : a.price_in_ticks = 0
      · have hstep : ∀ r b : ℕ, r ≠ 0 →
            sell_quote_go (a :: t) r b = sell_quote_go t r b := by
          intro r b hrne
          simp [sell_quote_go, if_neg hrne, hp]
        rw [hstep r1 b1 hr1, hstep r2 b2 hr2]
        exact ih htail r1 r2 b1 b2 hr hb
      · have hppos : 0 < a.price_in_ticks := Nat.pos_of_ne_zero hp
        simp only [sell_quote_go, if_neg hr1, if_neg hr2]
        by_cases h1 : r1 / a.price_in_ticks < a.size_in_base_lots
        · have e1 : min (r1 / a.price_in_ticks) a.size_in_base_lots =
              r1 / a.price_in_ticks := min_eq_left (le_of_lt h1)
          have hm1 := Nat.div_add_mod' r1 a.price_in_ticks
          have ha1 : r1 - r1 / a.price_in_ticks * a.price_in_ticks =
              r1 % a.price_in_ticks := by omega
          by_cases h2 : r2 / a.price_in_ticks < a.size_in_base_lots
          · -- both budget-capped: each run keeps less than one tick of
            -- budget, and every further level costs at least a full tick
            have e2 : min (r2 / a.price_in_ticks) a.size_in_base_lots =
                r2 / a.price_in_ticks := min_eq_left (le_of_lt h2)
            have hm2 := Nat.div_add_mod' r2 a.price_in_ticks
            have ha2 : r2 - r2 / a.price_in_ticks * a.price_in_ticks =
                r2 % a.price_in_ticks := by omega
            rw [e1, e2, ha1, ha2,
              sell_quote_go_stuck t _ _
                (fun x hx => lt_of_lt_of_le (Nat.mod_lt r1 hppos) (hhead x hx)),
              sell_quote_go_stuck t _ _
                (fun x hx => lt_of_lt_of_le (Nat.mod_lt r2 hppos) (hhead x hx))]
            dsimp only
            have hdd : r1 / a.price_in_ticks ≤ r2 / a.price_in_ticks :=
              Nat.div_le_div_right hr
            omega
          · -- run 1 budget-capped, run 2 size-capped
            have e2 : min (r2 / a.price_in_ticks) a.size_in_base_lots =
                a.size_in_base_lots := min_eq_right (Nat.le_of_not_lt h2)
            rw [e1, e2, ha1,
              sell_quote_go_stuck t _ _
                (fun x hx => lt_of_lt_of_le (Nat.mod_lt r1 hppos) (hhead x hx))]
            dsimp only
            have hge := sell_quote_go_snd_ge t
              (r2 - a.size_in_base_lots * a.price_in_ticks)
              (b2 + a.size_in_base_lots)
            omega
        · -- both size-capped
          have hds : a.size_in_base_lots ≤ r1 / a.price_in_ticks :=
            Nat.le_of_not_lt h1
          have h2 : a.size_in_base_lots ≤ r2 / a.price_in_ticks :=
            le_trans hds (Nat.div_le_div_right hr)
          have e1 : min (r1 / a.price_in_ticks) a.size_in_base_lots =
              a.size_in_base_lots := min_eq_right hds
          have e2 : min (r2 / a.price_in_ticks) a.size_in_base_lots =
              a.size_in_base_lots := min_eq_right h2
          rw [e1, e2]
          have hsp1 : a.size_in_base_lots * a.price_in_ticks ≤ r1 := by
            calc a.size_in_base_lots * a.price_in_ticks
                ≤ r1 / a.price_in_ticks * a.price_in_ticks :=
                  Nat.mul_le_mul_right _ hds
              _ ≤ r1 := Nat.div_mul_le_self _ _
          exact ih htail _ _ _ _ (by omega) (by omega)

/-- Monotonicity of the quote leg (budget actually spent) of the
quote-budgeted walk, for ladders whose ask prices do not decrease. -/
theorem sell_quote_go_spent_mono (asks : List LadderOrder)
    (hs : asks.Pairwise
      (fun a b => a.price_in_ticks ≤ b.price_in_ticks)) :
    ∀ r1 r2 b1 b2 : ℕ, r1 ≤ r2 →
      r1 - (sell_quote_go asks r1 b1).1 ≤
        r2 - (sell_quote_go asks r2 b2).1 := by
  induction asks with
  | nil => intro r1 r2 b1 b2 _; simp [sell_quote_go]
  | cons a t ih =>
    intro r1 r2 b1 b2 hr
    rw [List.pairwise_cons] at hs
    obtain ⟨hhead, htail⟩ := hs
    by_cases hr1 : r1 = 0
    · have hL : sell_quote_go (a :: t) r1 b1 = (r1, b1) := by
        simp [sell_quote_go, hr1]
      rw [hL]
      dsimp only
      omega
    · have hr2 : r2 ≠ 0 := fun h => hr1 (Nat.le_zero.mp (h ▸ hr))
      by_cases hp : a.price_in_ticks = 0
      · have hstep : ∀ r b : ℕ, r ≠ 0 →
            sell_quote_go (a :: t) r b = sell_quote_go t r b := by
          intro r b hrne
          simp [sell_quote_go, if_neg hrne, hp]
        rw [hstep r1 b1 hr1, hstep r2 b2 hr2]
        exact ih htail r1 r2 _ _ hr
      · have hppos : 0 < a.price_in_ticks := Nat.pos_of_ne_zero hp
        simp only [sell_quote_go, if_neg hr1, if_neg hr2]
        by_cases h1 : r1 / a.price_in_ticks < a.size_in_base_lots
        · have e1 : min (r1 / a.price_in_ticks) a.size_in_base_lots =
              r1 / a.price_in_ticks := min_eq_left (le_of_lt h1)
          have hm1 := Nat.div_add_mod' r1 a.price_in_ticks
          have ha1 : r1 - r1 / a.price_in_ticks * a.price_in_ticks =
              r1 % a.price_in_ticks := by omega
          by_cases h2 : r2 / a.price_in_ticks < a.size_in_base_lots
          · have e2 : min (r2 / a.price_in_ticks) a.size_in_base_lots =
                r2 / a.price_in_ticks := min_eq_left (le_of_lt h2)
            have hm2 := Nat.div_add_mod' r2 a.price_in_ticks
            have ha2 : r2 - r2 / a.price_in_ticks * a.price_in_ticks =
                r2 % a.price_in_ticks := by omega
            rw [e1, e2, ha1, ha2,
              sell_quote_go_stuck t _ _
                (fun x hx => lt_of_lt_of_le (Nat.mod_lt r1 hppos) (hhead x hx)),
              sell_quote_go_stuck t _ _
                (fun x hx => lt_of_lt_of_le (Nat.mod_lt r2 hppos) (hhead x hx))]
            dsimp only
            have hdd : r1 / a.price_in_ticks ≤ r2 / a.price_in_ticks :=
              Nat.div_le_div_right hr
            have hmm : r1 / a.price_in_ticks * a.price_in_ticks ≤
                r2 / a.price_in_ticks * a.price_in_ticks :=
              Nat.mul_le_mul_right _ hdd
            omega
          · have e2 : min (r2 / a.price_in_ticks) a.size_in_base_lots =
                a.size_in_base_lots := min_eq_right (Nat.le_of_not_lt h2)
            rw [e1, e2, ha1,
              sell_quote_go_stuck t _ _
                (fun x hx => lt_of_lt_of_le (Nat.mod_lt r1 hppos) (hhead x hx))]
            dsimp only
            have hsp2 : a.size_in_base_lots * a.price_in_ticks ≤ r2 := by
              calc a.size_in_base_lots * a.price_in_ticks
                  ≤ r2 / a.price_in_ticks * a.price_in_ticks :=
                    Nat.mul_le_mul_right _ (Nat.le_of_not_lt h2)
                _ ≤ r2 := Nat.div_mul_le_self _ _
            have hfst := sell_quote_go_fst_le t
              (r2 - a.size_in_base_lots * a.price_in_ticks)
              (b2 + a.size_in_base_lots)
            have hmul : r1 / a.price_in_ticks * a.price_in_ticks ≤
                a.size_in_base_lots * a.price_in_ticks :=
              Nat.mul_le_mul_right _ (le_of_lt h1)
            omega
        · have hds : a.size_in_base_lots ≤ r1 / a.price_in_ticks :=
            Nat.le_of_not_lt h1
          have h2 : a.size_in_base_lots ≤ r2 / a.price_in_ticks :=
            le_trans hds (Nat.div_le_div_right hr)
          have e1 : min (r1 / a.price_in_ticks) a.size_in_base_lots =
              a.size_in_base_lots := min_eq_right hds
          have e2 : min (r2 / a.price_in_ticks) a.size_in_base_lots =
              a.size_in_base_lots := min_eq_right h2
          rw [e1, e2]
          have hsp1 : a.size_in_base_lots * a.price_in_ticks ≤ r1 := by
            calc a.size_in_base_lots * a.price_in_ticks
                ≤ r1 / a.price_in_ticks * a.price_in_ticks :=
                  Nat.mul_le_mul_right _ hds
              _ ≤ r1 := Nat.div_mul_le_self _ _
          have hrec := ih htail
            (r1 - a.size_in_base_lots * a.price_in_ticks)
            (r2 - a.size_in_base_lots * a.price_in_ticks)
            (b1 + a.size_in_base_lots) (b2 + a.size_in_base_lots) (by omega)
          have hf1 := sell_quote_go_fst_le t
            (r1 - a.size_in_base_lots * a.price_in_ticks)
            (b1 + a.size_in_base_lots)
          have hf2 := sell_quote_go_fst_le t
            (r2 - a.size_in_base_lots * a.price_in_ticks)
            (b2 + a.size_in_base_lots)
          omega

/-- Monotonicity of the base-budgeted walk: both the budget spent and the
quote accumulated are monotone in the starting state, for any bids list. -/
theorem sell_base_go_mono (bids : List LadderOrder) :
    ∀ r1 r2 q1 q2 : ℕ, r1 ≤ r2 → q1 ≤ q2 →
      (sell_base_go bids r1 q1).2 ≤ (sell_base_go bids r2 q2).2 ∧
      r1 - (sell_base_go bids r1 q1).1 ≤
        r2 - (sell_base_go bids r2 q2).1 := by
  induction bids with
  | nil =>
    intro r1 r2 q1 q2 _ hq
    simp only [sell_base_go]
    omega
  | cons a t ih =>
    intro r1 r2 q1 q2 hr hq
    by_cases hr1 : r1 = 0
    · have hL : sell_base_go (a :: t) r1 q1 = (r1, q1) := by
        simp [sell_base_go, hr1]
      have hge := sell_base_go_snd_ge (a :: t) r2 q2
      rw [hL]
      dsimp only
      exact ⟨le_trans hq hge, by omega⟩
    · have hr2 : r2 ≠ 0 := fun h => hr1 (Nat.le_zero.mp (h ▸ hr))
      simp only [sell_base_go, if_neg hr1, if_neg hr2]
      have hfill : min r1 a.size_in_base_lots ≤ min r2 a.size_in_base_lots := by
        omega
      have hrec := ih (r1 - min r1 a.size_in_base_lots)
        (r2 - min r2 a.size_in_base_lots)
        (q1 + min r1 a.size_in_base_lots * a.price_in_ticks)
        (q2 + min r2 a.size_in_base_lots * a.price_in_ticks)
        (by omega)
        (by
          have := Nat.mul_le_mul_right a.price_in_ticks hfill
          omega)
      have hf1 := sell_base_go_fst_le t (r1 - min r1 a.size_in_base_lots)
        (q1 + min r1 a.size_in_base_lots * a.price_in_ticks)
      have hf2 := sell_base_go_fst_le t (r2 - min r2 a.size_in_base_lots)
        (q2 + min r2 a.size_in_base_lots * a.price_in_ticks)
      refine ⟨hrec.1, ?_⟩
      have := hrec.2
      omega

/-! ## Claim theorems for the simulator -/

/-- C2: Simulator conservation.  For every ladder and every budget,
sell_base fills at most the budget and at most the total bid depth;
sell_quote spends at most the budget and at most the total ask-side
notional (sum of size * price); an empty consumed side yields (0, 0); and
no u64 subtraction in either walk underflows (no remaining budget ever
goes negative). -/
theorem C2_simulator_conservation (l : Ladder) (size_in_lots : ℕ) :
    (l.sell_base size_in_lots).base_lots_filled ≤ size_in_lots ∧
    (l.sell_base size_in_lots).base_lots_filled ≤
      (l.bids.map LadderOrder.size_in_base_lots).sum ∧
    (l.sell_quote size_in_lots).quote_lots_filled ≤ size_in_lots ∧
    (l.sell_quote size_in_lots).quote_lots_filled ≤
      (l.asks.map
        (fun a => a.size_in_base_lots * a.price_in_ticks)).sum ∧
    (l.bids = [] →
      l.sell_base size_in_lots = ⟨0, 0⟩) ∧
    (l.asks = [] →
      l.sell_quote size_in_lots = ⟨0, 0⟩) ∧
    sell_base_underflows l.bids size_in_lots = false ∧
    sell_quote_underflows l.asks size_in_lots = false := by
  refine ⟨?_, ?_, ?_, ?_, ?_, ?_, ?_, ?_⟩
  · exact Nat.sub_le _ _
  · exact sell_base_go_spent_le l.bids size_in_lots 0
  · exact Nat.sub_le _ _
  · exact sell_quote_go_spent_le l.asks size_in_lots 0
  · intro h
    simp [Ladder.sell_base, h, sell_base_go]
  · intro h
    simp [Ladder.sell_quote, h, sell_quote_go]
  · exact sell_base_underflows_false l.bids size_in_lots
  · exact sell_quote_underflows_false l.asks size_in_lots

/-- Witness for C2 at a concrete input, discharging the two conditional
clauses at the empty ladder. -/
theorem C2_witness :
    Ladder.sell_base ⟨[], []⟩ 1000 = ⟨0, 0⟩ ∧
    Ladder.sell_quote ⟨[], []⟩ 1000 = ⟨0, 0⟩ ∧
    (Ladder.sell_base get_sol_usdc_ladder 6000).base_lots_filled ≤ 6000 :=
  ⟨(C2_simulator_conservation ⟨[], []⟩ 1000).2.2.2.2.1 rfl,
   (C2_simulator_conservation ⟨[], []⟩ 1000).2.2.2.2.2.1 rfl,
   (C2_simulator_conservation get_sol_usdc_ladder 6000).1⟩

/-- C3: the concrete simulation scenarios of the reference fixture, plus
the dispatch of simulate_market_sell (Bid to the quote-budgeted walk over
asks, Ask to the base-budgeted walk over bids). -/
theorem C3_concrete_scenarios :
    get_sol_usdc_ladder.simulate_market_sell Side.Ask 3000 =
      ⟨3000, 68130654⟩ ∧
    get_sol_usdc_ladder.simulate_market_sell Side.Ask 6000 =
      ⟨3261, 74054049⟩ ∧
    get_sol_usdc_ladder.simulate_market_sell Side.Bid 68000000 =
      ⟨2992, 67978240⟩ ∧
    get_sol_usdc_ladder.simulate_market_sell Side.Ask 0 = ⟨0, 0⟩ ∧
    get_sol_usdc_ladder.simulate_market_sell Side.Bid 0 = ⟨0, 0⟩ ∧
    (∀ (l : Ladder) (s : ℕ),
      l.simulate_market_sell Side.Bid s = l.sell_quote s ∧
      l.simulate_market_sell Side.Ask s = l.sell_base s) :=
  ⟨by decide, by decide, by decide, by decide, by decide,
   fun l s => ⟨rfl, rfl⟩⟩

/-- C4 as stated is false: on a ladder whose asks are not ordered
best-to-worst, a larger quote budget can fill strictly fewer base lots
(budget 49 fills 13 base lots, budget 50 fills only 5). -/
theorem C4_counterexample :
    ¬ (∀ (l : Ladder) (s1 s2 : ℕ), s1 ≤ s2 →
        (l.simulate_market_sell Side.Bid s1).base_lots_filled ≤
          (l.simulate_market_sell Side.Bid s2).base_lots_filled ∧
        (l.simulate_market_sell Side.Bid s1).quote_lots_filled ≤
          (l.simulate_market_sell Side.Bid s2).quote_lots_filled ∧
        (l.simulate_market_sell Side.Ask s1).base_lots_filled ≤
          (l.simulate_market_sell Side.Ask s2).base_lots_filled ∧
        (l.simulate_market_sell Side.Ask s1).quote_lots_filled ≤
          (l.simulate_market_sell Side.Ask s2).quote_lots_filled) := by
  intro h
  exact absurd
    ((h ⟨[], [⟨10, 5⟩, ⟨1, 100⟩]⟩ 49 50 (by decide)).1) (by decide)

/-- C4 amended: on every ladder whose ask prices are non-decreasing in
list order (the documented best-to-worst ladder ordering; the bid walk
needs no ordering), both returned fields of simulate_market_sell are
monotone in the requested size on both walks. -/
theorem C4_simulator_monotonicity (l : Ladder)
    (hs : l.asks.Pairwise
      (fun a b => a.price_in_ticks ≤ b.price_in_ticks))
    (s1 s2 : ℕ) (h : s1 ≤ s2) :
    (l.simulate_market_sell Side.Bid s1).base_lots_filled ≤
      (l.simulate_market_sell Side.Bid s2).base_lots_filled ∧
    (l.simulate_market_sell Side.Bid s1).quote_lots_filled ≤
      (l.simulate_market_sell Side.Bid s2).quote_lots_filled ∧
    (l.simulate_market_sell Side.Ask s1).base_lots_filled ≤
      (l.simulate_market_sell Side.Ask s2).base_lots_filled ∧
    (l.simulate_market_sell Side.Ask s1).quote_lots_filled ≤
      (l.simulate_market_sell Side.Ask s2).quote_lots_filled := by
  have hbase := sell_base_go_mono l.bids s1 s2 0 0 h (le_refl 0)
  refine ⟨?_, ?_, ?_, ?_⟩
  · exact sell_quote_go_base_mono l.asks hs s1 s2 0 0 h (le_refl 0)
  · exact sell_quote_go_spent_mono l.asks hs s1 s2 0 0 h
  · exact hbase.2
  · exact hbase.1

/-- Witness for the amended C4 at the reference fixture. -/
theorem C4_witness :
    (get_sol_usdc_ladder.simulate_market_sell Side.Bid 68000000
      ).base_lots_filled ≤
      (get_sol_usdc_ladder.simulate_market_sell Side.Bid 70000000
        ).base_lots_filled ∧
    (get_sol_usdc_ladder.simulate_market_sell Side.Ask 3000
      ).quote_lots_filled ≤
      (get_sol_usdc_ladder.simulate_market_sell Side.Ask 6000
        ).quote_lots_filled :=
  ⟨(C4_simulator_monotonicity get_sol_usdc_ladder (by decide)
      68000000 70000000 (by decide)).1,
   (C4_simulator_monotonicity get_sol_usdc_ladder (by decide)
      3000 6000 (by decide)).2.2.2⟩

/-- C10: whenever every ask level has a strictly positive price, no
iteration of the quote-budgeted walk divides by zero, so sell_quote (and
simulate_market_sell with side Bid) is total; and dropping that
precondition an ask level of price zero reached with a positive remaining
budget is a division by zero. -/
theorem C10_sell_quote_totality :
    (∀ (l : Ladder) (size_in_lots : ℕ),
      (∀ a ∈ l.asks, 0 < a.price_in_ticks) →
        sell_quote_divides_by_zero l.asks size_in_lots = false) ∧
    sell_quote_divides_by_zero
      [{ price_in_ticks := 0, size_in_base_lots := 5 }] 7 = true :=
  ⟨fun l s hpos => sell_quote_divides_by_zero_false l.asks hpos s,
   by decide⟩

/-- Witness for C10 at a concrete all-positive-price ladder. -/
theorem C10_witness :
    sell_quote_divides_by_zero get_sol_usdc_ladder.asks 68000000 = false :=
  C10_sell_quote_totality.1 get_sol_usdc_ladder 68000000 (by decide)

/-! ## Order-book lemmas -/

theorem mem_insertEntry {K V : Type} [LinearOrder K] (p : K) (v : V) :
    ∀ (l : List (K × V)) (x : K × V),
      x ∈ insertEntry p v l → x = (p, v) ∨ x ∈ l := by
  intro l
  induction l with
  | nil => intro x hx; simpa [insertEntry] using hx
  | cons qw t ih =>
    intro x hx
    obtain ⟨q, w⟩ := qw
    by_cases h1 : p < q
    · simp only [insertEntry, if_pos h1, List.mem_cons] at hx
      rcases hx with h | h | h
      · exact Or.inl h
      · exact Or.inr (by simp [h])
      · exact Or.inr (List.mem_cons_of_mem _ h)
    · by_cases h2 : p = q
      · simp only [insertEntry, if_neg h1, if_pos h2, List.mem_cons] at hx
        rcases hx with h | h
        · exact Or.inl h
        · exact Or.inr (List.mem_cons_of_mem _ h)
      · simp only [insertEntry, if_neg h1, if_neg h2, List.mem_cons] at hx
        rcases hx with h | h
        · exact Or.inr (by simp [h])
        · rcases ih x h with h3 | h3
          · exact Or.inl h3
          · exact Or.inr (List.mem_cons_of_mem _ h3)

theorem sortedKeys_insertEntry {K V : Type} [LinearOrder K] (p : K) (v : V) :
    ∀ l : List (K × V), sortedKeys l → sortedKeys (insertEntry p v l) := by
  intro l
  induction l with
  | nil => intro _; simp [insertEntry, sortedKeys]
  | cons qw t ih =>
    intro hs
    obtain ⟨q, w⟩ := qw
    rw [sortedKeys, List.pairwise_cons] at hs
    obtain ⟨hhead, htail⟩ := hs
    by_cases h1 : p < q
    · rw [sortedKeys]
      simp only [insertEntry, if_pos h1]
      rw [List.pairwise_cons]
      constructor
      · intro y hy
        rcases List.mem_cons.mp hy with h | h
        · simpa [h] using h1
        · exact lt_trans h1 (hhead y h)
      · rw [List.pairwise_cons]
        exact ⟨hhead, htail⟩
    · by_cases h2 : p = q
      · rw [sortedKeys]
        simp only [insertEntry, if_neg h1, if_pos h2]
        rw [List.pairwise_cons]
        refine ⟨?_, htail⟩
        intro y hy
        simpa [h2] using hhead y hy
      · rw [sortedKeys]
        simp only [insertEntry, if_neg h1, if_neg h2]
        rw [List.pairwise_cons]
        constructor
        · intro y hy
          rcases mem_insertEntry p v t y hy with h | h
          · have : q < p := lt_of_le_of_ne (le_of_not_lt h1)
              (fun hqp => h2 hqp.symm)
            simpa [h] using this
          · exact hhead y h
        · exact ih htail

theorem removeKey_sublist {K V : Type} [DecidableEq K] (p : K) :
    ∀ l : List (K × V), (removeKey p l).Sublist l := by
  intro l
  induction l with
  | nil => simp [removeKey]
  | cons qw t ih =>
    obtain ⟨q, w⟩ := qw
    by_cases h : p = q
    · simp only [removeKey, if_pos h]
      exact List.sublist_cons_self _ _
    · simp only [removeKey, if_neg h]
      exact List.Sublist.cons₂ _ ih

theorem removeKey_of_not_mem {K V : Type} [DecidableEq K] (p : K) :
    ∀ l : List (K × V), p ∉ keysOf l → removeKey p l = l := by
  intro l
  induction l with
  | nil => intro _; simp [removeKey]
  | cons qw t ih =>
    intro hp
    obtain ⟨q, w⟩ := qw
    rw [keysOf] at hp
    simp only [List.map_cons, List.mem_cons] at hp
    push_neg at hp
    simp only [removeKey, if_neg hp.1]
    rw [ih (by simpa [keysOf] using hp.2)]

theorem keysOf_removeKey {K V : Type} [LinearOrder K] (p : K) :
    ∀ l : List (K × V), sortedKeys l →
      ∀ k : K, k ∈ keysOf (removeKey p l) ↔ k ∈ keysOf l ∧ k ≠ p := by
  intro l
  induction l with
  | nil => intro _ k; simp [removeKey, keysOf]
  | cons qw t ih =>
    intro hs k
    obtain ⟨q, w⟩ := qw
    rw [sortedKeys, List.pairwise_cons] at hs
    obtain ⟨hhead, htail⟩ := hs
    by_cases h : p = q
    · simp only [removeKey, if_pos h, keysOf, List.map_cons, List.mem_cons]
      constructor
      · intro hk
        refine ⟨Or.inr hk, ?_⟩
        rcases List.mem_map.mp hk with ⟨y, hy, hky⟩
        have hlt : q < y.1 := hhead y hy
        rw [h, ← hky]
        exact ne_of_gt hlt
      · intro hk
        rcases hk.1 with h1 | h1
        · exact absurd (h1.trans h.symm) hk.2
        · exact h1
    · simp only [removeKey, if_neg h, keysOf, List.map_cons, List.mem_cons]
      rw [← keysOf]
      constructor
      · intro hk
        rcases hk with h1 | h1
        · exact ⟨Or.inl h1, fun hkp => h (by rw [← hkp, h1])⟩
        · have := (ih htail k).mp h1
          exact ⟨Or.inr this.1, this.2⟩
      · intro hk
        rcases hk.1 with h1 | h1
        · exact Or.inl h1
        · exact Or.inr ((ih htail k).mpr ⟨h1, hk.2⟩)

theorem dropCrossedAsks_sublist {K V : Type} (price : K → ℚ) (pq : ℚ)
    (l : List (K × V)) : (dropCrossedAsks price pq l).Sublist l :=
  List.dropWhile_sublist _

theorem dropCrossedBids_sublist {K V : Type} (price : K → ℚ) (pq : ℚ)
    (l : List (K × V)) : (dropCrossedBids price pq l).Sublist l := by
  have h := List.dropWhile_sublist
    (l := l.reverse) (fun e : K × V => decide (pq ≤ price e.1))
  have h2 := h.reverse
  rw [List.reverse_reverse] at h2
  exact h2

/-- Every surviving ask after crossing resolution against a bid at
modelled price pq is strictly more expensive than pq, provided the price
projection is monotone in the key order and the ask keys ascend. -/
theorem mem_dropCrossedAsks_gt {K V : Type} [LinearOrder K]
    (price : K → ℚ) (hm : Monotone price) (pq : ℚ) :
    ∀ l : List (K × V), sortedKeys l →
      ∀ x ∈ dropCrossedAsks price pq l, pq < price x.1 := by
  intro l
  induction l with
  | nil => intro _ x hx; simp [dropCrossedAsks] at hx
  | cons qw t ih =>
    intro hs x hx
    rw [sortedKeys, List.pairwise_cons] at hs
    obtain ⟨hhead, htail⟩ := hs
    rw [dropCrossedAsks, List.dropWhile_cons] at hx
    by_cases hc : price qw.1 ≤ pq
    · rw [if_pos (by simpa using hc)] at hx
      exact ih htail x hx
    · rw [if_neg (by simpa using hc)] at hx
      push_neg at hc
      rcases List.mem_cons.mp hx with h | h
      · simpa [h] using hc
      · exact lt_of_lt_of_le hc (hm (le_of_lt (hhead x h)))

/-- Every surviving bid after crossing resolution against an ask at
modelled price pq is strictly cheaper than pq; stated over a descending
list since the loop consumes the bids from the maximum downwards. -/
theorem mem_dropWhileDesc_lt {K V : Type} [LinearOrder K]
    (price : K → ℚ) (hm : Monotone price) (pq : ℚ) :
    ∀ l : List (K × V), l.Pairwise (fun a b => b.1 < a.1) →
      ∀ x ∈ l.dropWhile (fun e => decide (pq ≤ price e.1)),
        price x.1 < pq := by
  intro l
  induction l with
  | nil => intro _ x hx; simp at hx
  | cons qw t ih =>
    intro hs x hx
    rw [List.pairwise_cons] at hs
    obtain ⟨hhead, htail⟩ := hs
    rw [List.dropWhile_cons] at hx
    by_cases hc : pq ≤ price qw.1
    · rw [if_pos (by simpa using hc)] at hx
      exact ih htail x hx
    · rw [if_neg (by simpa using hc)] at hx
      push_neg at hc
      rcases List.mem_cons.mp hx with h | h
      · simpa [h] using hc
      · exact lt_of_le_of_lt (hm (le_of_lt (hhead x h))) hc

theorem mem_dropCrossedBids_lt {K V : Type} [LinearOrder K]
    (price : K → ℚ) (hm : Monotone price) (pq : ℚ)
    (l : List (K × V)) (hs : sortedKeys l) :
    ∀ x ∈ dropCrossedBids price pq l, price x.1 < pq := by
  intro x hx
  rw [dropCrossedBids, List.mem_reverse] at hx
  have hrev : l.reverse.Pairwise (fun a b : K × V => b.1 < a.1) :=
    List.pairwise_reverse.mpr hs
  exact mem_dropWhileDesc_lt price hm pq l.reverse hrev x hx

/-- apply_order preserves sortedness of both sides and the no-crossed-book
property, for any monotone price projection. -/
theorem apply_order_preserves {K V : Type} [LinearOrder K]
    (price : K → ℚ) (hm : Monotone price) (vsize : V → ℚ) (side : Side)
    (b : Orderbook K V) (p : K) (v : V)
    (hb : sortedKeys b.bids) (ha : sortedKeys b.asks)
    (hu : b.uncrossed price) :
    sortedKeys (Orderbook.apply_order price vsize side b p v).bids ∧
    sortedKeys (Orderbook.apply_order price vsize side b p v).asks ∧
    (Orderbook.apply_order price vsize side b p v).uncrossed price := by
  cases side with
  | Bid =>
    by_cases hz : vsize v = 0
    · simp only [Orderbook.apply_order, if_pos hz]
      refine ⟨hb.sublist (removeKey_sublist p b.bids), ha, ?_⟩
      intro x hx y hy
      exact hu x ((removeKey_sublist p b.bids).subset hx) y hy
    · simp only [Orderbook.apply_order, if_neg hz]
      refine ⟨sortedKeys_insertEntry p v b.bids hb,
        ha.sublist (dropCrossedAsks_sublist price (price p) b.asks), ?_⟩
      intro x hx y hy
      rcases mem_insertEntry p v b.bids x hx with h | h
      · rw [h]
        exact mem_dropCrossedAsks_gt price hm (price p) b.asks ha y hy
      · exact hu x h y
          ((dropCrossedAsks_sublist price (price p) b.asks).subset hy)
  | Ask =>
    by_cases hz : vsize v = 0
    · simp only [Orderbook.apply_order, if_pos hz]
      refine ⟨hb, ha.sublist (removeKey_sublist p b.asks), ?_⟩
      intro x hx y hy
      exact hu x hx y ((removeKey_sublist p b.asks).subset hy)
    · simp only [Orderbook.apply_order, if_neg hz]
      refine ⟨hb.sublist (dropCrossedBids_sublist price (price p) b.bids),
        sortedKeys_insertEntry p v b.asks ha, ?_⟩
      intro x hx y hy
      rcases mem_insertEntry p v b.asks y hy with h | h
      · rw [h]
        exact mem_dropCrossedBids_lt price hm (price p) b.bids hb x hx
      · exact hu x
          ((dropCrossedBids_sublist price (price p) b.bids).subset hx) y h

/-- update_orders preserves sortedness of both sides and the
no-crossed-book property. -/
theorem update_orders_preserves {K V : Type} [LinearOrder K]
    (price : K → ℚ) (hm : Monotone price) (vsize : V → ℚ) (side : Side) :
    ∀ (orders : List (K × V)) (b : Orderbook K V),
      sortedKeys b.bids → sortedKeys b.asks → b.uncrossed price →
      sortedKeys (Orderbook.update_orders price vsize b side orders).bids ∧
      sortedKeys (Orderbook.update_orders price vsize b side orders).asks ∧
      (Orderbook.update_orders price vsize b side orders).uncrossed price := by
  intro orders
  induction orders with
  | nil =>
    intro b hb ha hu
    exact ⟨hb, ha, hu⟩
  | cons e t ih =>
    intro b hb ha hu
    have hstep := apply_order_preserves price hm vsize side b e.1 e.2 hb ha hu
    have : Orderbook.update_orders price vsize b side (e :: t) =
        Orderbook.update_orders price vsize
          (Orderbook.apply_order price vsize side b e.1 e.2) side t := by
      simp [Orderbook.update_orders]
    rw [this]
    exact ih _ hstep.1 hstep.2.1 hstep.2.2

theorem apply_calls_preserves {K V : Type} [LinearOrder K]
    (price : K → ℚ) (hm : Monotone price) (vsize : V → ℚ) :
    ∀ (calls : List (Side × List (K × V))) (b : Orderbook K V),
      sortedKeys b.bids → sortedKeys b.asks → b.uncrossed price →
      sortedKeys (Orderbook.apply_calls price vsize b calls).bids ∧
      sortedKeys (Orderbook.apply_calls price vsize b calls).asks ∧
      (Orderbook.apply_calls price vsize b calls).uncrossed price := by
  intro calls
  induction calls with
  | nil =>
    intro b hb ha hu
    exact ⟨hb, ha, hu⟩
  | cons c t ih =>
    intro b hb ha hu
    have hstep := update_orders_preserves price hm vsize c.1 c.2 b hb ha hu
    have : Orderbook.apply_calls price vsize b (c :: t) =
        Orderbook.apply_calls price vsize
          (Orderbook.update_orders price vsize b c.1 c.2) t := by
      simp [Orderbook.apply_calls]
    rw [this]
    exact ih _ hstep.1 hstep.2.1 hstep.2.2

/-! ## Claim theorems for the order-book mirror -/

/-- C1: No-crossed-book invariant.  For every sequence of update_orders
calls applied from the empty book, and any monotone price projection (as
all OrderbookKey instances in the source are: u64, f64, Decimal and
FIFOOrderId keys all reach f64 through monotone conversions), the
resulting book satisfies: no key in bids has price greater than or equal
to the price of any key in asks; since every prefix of a call sequence is
itself a call sequence, the invariant holds after each call. -/
theorem C1_no_crossed_book {K V : Type} [LinearOrder K]
    (price : K → ℚ) (hm : Monotone price) (vsize : V → ℚ) (rb qu : ℚ)
    (calls : List (Side × List (K × V))) :
    (Orderbook.apply_calls price vsize
      (Orderbook.empty rb qu) calls).uncrossed price := by
  have h := apply_calls_preserves price hm vsize calls
    (Orderbook.empty rb qu)
    (by simp [Orderbook.empty, sortedKeys])
    (by simp [Orderbook.empty, sortedKeys])
    (by intro x hx; simp [Orderbook.empty] at hx)
  exact h.2.2

/-- Witness for C1: a concrete run over natural-number keys in which a
crossing update arrives and the book stays uncrossed. -/
theorem C1_witness :
    (Orderbook.apply_calls (fun k : ℕ => (k : ℚ)) (fun v : ℕ => (v : ℚ))
      (Orderbook.empty 1 1)
      [(Side.Bid, [(5, 3), (6, 1)]), (Side.Ask, [(4, 2)])]).uncrossed
      (fun k : ℕ => (k : ℚ)) :=
  C1_no_crossed_book (fun k : ℕ => (k : ℚ))
    (fun a b h => by simpa using h) (fun v : ℕ => (v : ℚ)) 1 1
    [(Side.Bid, [(5, 3), (6, 1)]), (Side.Ask, [(4, 2)])]

/-- A single-pair update_orders call is exactly one apply_order step. -/
theorem update_orders_single {K V : Type} [LinearOrder K]
    (price : K → ℚ) (vsize : V → ℚ) (b : Orderbook K V) (side : Side)
    (p : K) (v : V) :
    Orderbook.update_orders price vsize b side [(p, v)] =
      Orderbook.apply_order price vsize side b p v := by
  simp [Orderbook.update_orders]

/-- C7: Zero-quantity removal.  For every well-formed book state, side and
price, an update with a zero-size quantity removes the entry at that price
from that side (the other side untouched), and is a no-op when the price
is absent. -/
theorem C7_zero_quantity_removal {K V : Type} [LinearOrder K]
    (price : K → ℚ) (vsize : V → ℚ) (b : Orderbook K V) (side : Side)
    (p : K) (v : V) (hb : sortedKeys b.bids) (ha : sortedKeys b.asks)
    (hz : vsize v = 0) :
    (side = Side.Bid →
      (Orderbook.update_orders price vsize b side [(p, v)]).asks = b.asks ∧
      (∀ k : K, k ∈ keysOf
          (Orderbook.update_orders price vsize b side [(p, v)]).bids ↔
        (k ∈ keysOf b.bids ∧ k ≠ p)) ∧
      (p ∉ keysOf b.bids →
        Orderbook.update_orders price vsize b side [(p, v)] = b)) ∧
    (side = Side.Ask →
      (Orderbook.update_orders price vsize b side [(p, v)]).bids = b.bids ∧
      (∀ k : K, k ∈ keysOf
          (Orderbook.update_orders price vsize b side [(p, v)]).asks ↔
        (k ∈ keysOf b.asks ∧ k ≠ p)) ∧
      (p ∉ keysOf b.asks →
        Orderbook.update_orders price vsize b side [(p, v)] = b)) := by
  rw [update_orders_single]
  constructor
  · intro hside
    subst hside
    have hstep : Orderbook.apply_order price vsize Side.Bid b p v =
        { b with bids := removeKey p b.bids } := by
      simp [Orderbook.apply_order, hz]
    rw [hstep]
    refine ⟨rfl, fun k => keysOf_removeKey p b.bids hb k, ?_⟩
    intro hp
    rw [removeKey_of_not_mem p b.bids hp]
  · intro hside
    subst hside
    have hstep : Orderbook.apply_order price vsize Side.Ask b p v =
        { b with asks := removeKey p b.asks } := by
      simp [Orderbook.apply_order, hz]
    rw [hstep]
    refine ⟨rfl, fun k => keysOf_removeKey p b.asks ha k, ?_⟩
    intro hp
    rw [removeKey_of_not_mem p b.asks hp]

/-- Witness for C7 over rational keys and values with identity
projections: removing price 3 empties the bid side and leaves the asks,
and removing an absent price 7 is a no-op. -/
theorem C7_witness :
    (Orderbook.update_orders (fun k : ℚ => k) (fun v : ℚ => v)
        { raw_base_units_per_base_lot := 1,
          quote_units_per_raw_base_unit_per_tick := 1,
          bids := [(3, 2)], asks := [(5, 4)] }
        Side.Bid [((7 : ℚ), (0 : ℚ))]) =
      { raw_base_units_per_base_lot := 1,
        quote_units_per_raw_base_unit_per_tick := 1,
        bids := [(3, 2)], asks := [(5, 4)] } ∧
    (Orderbook.update_orders (fun k : ℚ => k) (fun v : ℚ => v)
        { raw_base_units_per_base_lot := 1,
          quote_units_per_raw_base_unit_per_tick := 1,
          bids := [(3, 2)], asks := [(5, 4)] }
        Side.Bid [((3 : ℚ), (0 : ℚ))]).asks = [(5, 4)] := by
  have h7 := C7_zero_quantity_removal (fun k : ℚ => k) (fun v : ℚ => v)
    { raw_base_units_per_base_lot := 1,
      quote_units_per_raw_base_unit_per_tick := 1,
      bids := [(3, 2)], asks := [(5, 4)] }
    Side.Bid 7 0 (by simp [sortedKeys]) (by simp [sortedKeys]) rfl
  have h3 := C7_zero_quantity_removal (fun k : ℚ => k) (fun v : ℚ => v)
    { raw_base_units_per_base_lot := 1,
      quote_units_per_raw_base_unit_per_tick := 1,
      bids := [(3, 2)], asks := [(5, 4)] }
    Side.Bid 3 0 (by simp [sortedKeys]) (by simp [sortedKeys]) rfl
  refine ⟨(h7.1 rfl).2.2 ?_, (h3.1 rfl).1⟩
  simp [keysOf]

theorem insertEntry_idem {K V : Type} [LinearOrder K] (p : K) (v : V) :
    ∀ l : List (K × V), insertEntry p v (insertEntry p v l) =
      insertEntry p v l := by
  intro l
  induction l with
  | nil => simp [insertEntry]
  | cons qw t ih =>
    obtain ⟨q, w⟩ := qw
    by_cases h1 : p < q
    · simp [insertEntry, h1, lt_irrefl]
    · by_cases h2 : p = q
      · simp [insertEntry, h1, h2, lt_irrefl]
      · simp only [insertEntry, if_neg h1, if_neg h2]
        rw [ih]

theorem dropWhile_idem {α : Type} (c : α → Bool) :
    ∀ l : List α, (l.dropWhile c).dropWhile c = l.dropWhile c := by
  intro l
  induction l with
  | nil => simp
  | cons a t ih =>
    by_cases h : c a
    · simp [List.dropWhile_cons, h, ih]
    · simp [List.dropWhile_cons, h]

theorem dropCrossedAsks_idem {K V : Type} (price : K → ℚ) (pq : ℚ)
    (l : List (K × V)) :
    dropCrossedAsks price pq (dropCrossedAsks price pq l) =
      dropCrossedAsks price pq l := by
  simp [dropCrossedAsks, dropWhile_idem]

theorem dropCrossedBids_idem {K V : Type} (price : K → ℚ) (pq : ℚ)
    (l : List (K × V)) :
    dropCrossedBids price pq (dropCrossedBids price pq l) =
      dropCrossedBids price pq l := by
  simp [dropCrossedBids, List.reverse_reverse, dropWhile_idem]

theorem removeKey_idem {K V : Type} [LinearOrder K] (p : K)
    (l : List (K × V)) (hs : sortedKeys l) :
    removeKey p (removeKey p l) = removeKey p l := by
  apply removeKey_of_not_mem
  intro hp
  exact ((keysOf_removeKey p l hs p).mp hp).2 rfl

/-- C8: Idempotence of no-op updates.  Applying the same non-crossing
(price, quantity) pair twice in a row leaves the book identical to
applying it once, on every well-formed book state. -/
theorem C8_idempotence {K V : Type} [LinearOrder K]
    (price : K → ℚ) (vsize : V → ℚ) (b : Orderbook K V) (side : Side)
    (p : K) (v : V) (hb : sortedKeys b.bids) (ha : sortedKeys b.asks)
    (hnc : b.pair_non_crossing price side p) :
    Orderbook.update_orders price vsize
      (Orderbook.update_orders price vsize b side [(p, v)]) side [(p, v)] =
      Orderbook.update_orders price vsize b side [(p, v)] := by
  rw [update_orders_single, update_orders_single]
  cases side with
  | Bid =>
    by_cases hz : vsize v = 0
    · simp only [Orderbook.apply_order, if_pos hz]
      rw [removeKey_idem p b.bids hb]
    · simp only [Orderbook.apply_order, if_neg hz]
      rw [insertEntry_idem, dropCrossedAsks_idem]
  | Ask =>
    by_cases hz : vsize v = 0
    · simp only [Orderbook.apply_order, if_pos hz]
      rw [removeKey_idem p b.asks ha]
    · simp only [Orderbook.apply_order, if_neg hz]
      rw [insertEntry_idem, dropCrossedBids_idem]

/-- Witness for C8: repeating a non-crossing bid update changes nothing
beyond the first application. -/
theorem C8_witness :
    Orderbook.update_orders (fun k : ℚ => k) (fun v : ℚ => v)
      (Orderbook.update_orders (fun k : ℚ => k) (fun v : ℚ => v)
        { raw_base_units_per_base_lot := 1,
          quote_units_per_raw_base_unit_per_tick := 1,
          bids := [(3, 2)], asks := [(5, 4)] }
        Side.Bid [((4 : ℚ), (1 : ℚ))]) Side.Bid [((4 : ℚ), (1 : ℚ))] =
    Orderbook.update_orders (fun k : ℚ => k) (fun v : ℚ => v)
      { raw_base_units_per_base_lot := 1,
        quote_units_per_raw_base_unit_per_tick := 1,
        bids := [(3, 2)], asks := [(5, 4)] }
      Side.Bid [((4 : ℚ), (1 : ℚ))] :=
  C8_idempotence (fun k : ℚ => k) (fun v : ℚ => v)
    { raw_base_units_per_base_lot := 1,
      quote_units_per_raw_base_unit_per_tick := 1,
      bids := [(3, 2)], asks := [(5, 4)] }
    Side.Bid 4 1 (by simp [sortedKeys]) (by simp [sortedKeys])
    (by intro y hy; simp at hy; rw [hy]; norm_num)

/-! ## Claim theorems for vwap -/

/-- C9 as stated is false: with levels = 0 both sides of a populated book
have at least `levels` entries, yet the code divides 0.0 by 0.0 and the
f64 result is NaN (modelled: the denominator product is zero, so the
result is non-finite). -/
theorem C9_counterexample :
    ¬ (∀ levels : ℕ,
        levels ≤ (Orderbook.get_bids
          { raw_base_units_per_base_lot := 1,
            quote_units_per_raw_base_unit_per_tick := 1,
            bids := [((1 : ℚ), (1 : ℚ))],
            asks := [((2 : ℚ), (1 : ℚ))] }).length →
        levels ≤ (Orderbook.get_asks
          { raw_base_units_per_base_lot := 1,
            quote_units_per_raw_base_unit_per_tick := 1,
            bids := [((1 : ℚ), (1 : ℚ))],
            asks := [((2 : ℚ), (1 : ℚ))] }).length →
        Orderbook.vwap_is_finite (fun v : ℚ => v)
          { raw_base_units_per_base_lot := 1,
            quote_units_per_raw_base_unit_per_tick := 1,
            bids := [((1 : ℚ), (1 : ℚ))],
            asks := [((2 : ℚ), (1 : ℚ))] } levels) := by
  intro h
  exact h 0 (Nat.zero_le _) (Nat.zero_le _)
    (by simp [Orderbook.vwap_is_finite, Orderbook.vwap_denom])

/-- C9 amended: vwap may be non-finite when a side has fewer than `levels`
entries (the counterexample exhibits a zero denominator); whenever
`levels` is at least one, both sides hold at least `levels` entries, every
stored size is positive, every stored price is non-negative, and the
market scaling constant is positive, the vwap denominator is non-zero (the
f64 result is finite) and the resulting price is non-negative. -/
theorem C9_vwap_sufficient_depth {K V : Type} [LinearOrder K]
    (price : K → ℚ) (vsize : V → ℚ) (b : Orderbook K V) (levels : ℕ)
    (hlev : 1 ≤ levels)
    (hlb : levels ≤ b.get_bids.length)
    (hla : levels ≤ b.get_asks.length)
    (hszb : ∀ x ∈ b.bids, 0 < vsize x.2)
    (hsza : ∀ x ∈ b.asks, 0 < vsize x.2)
    (hprb : ∀ x ∈ b.bids, 0 ≤ price x.1)
    (hpra : ∀ x ∈ b.asks, 0 ≤ price x.1)
    (hmult : 0 < b.quote_units_per_raw_base_unit_per_tick) :
    Orderbook.vwap_is_finite vsize b levels ∧
    0 ≤ Orderbook.vwap price vsize b levels := by
  have hne : (b.get_bids.take levels).zip (b.get_asks.take levels) ≠ [] := by
    apply List.ne_nil_of_length_pos
    rw [List.length_zip, List.length_take, List.length_take]
    omega
  have hdenom : 0 < Orderbook.vwap_denom vsize b levels := by
    apply List.sum_pos
    · intro s hs
      rcases List.mem_map.mp hs with ⟨e, he, hse⟩
      obtain ⟨x, y⟩ := e
      have hxy := List.of_mem_zip he
      have hx : x ∈ b.bids := by
        have := List.take_subset levels b.get_bids hxy.1
        rw [Orderbook.get_bids, List.mem_reverse] at this
        exact this
      have hy : y ∈ b.asks := List.take_subset levels b.get_asks hxy.2
      rw [← hse]
      have h1 := hszb x hx
      have h2 := hsza y hy
      dsimp only
      linarith
    · intro hmap
      exact hne (List.map_eq_nil_iff.mp hmap)
  have hnum : 0 ≤ Orderbook.vwap_num price vsize b levels := by
    apply List.sum_nonneg
    intro s hs
    rcases List.mem_map.mp hs with ⟨e, he, hse⟩
    obtain ⟨x, y⟩ := e
    have hxy := List.of_mem_zip he
    have hx : x ∈ b.bids := by
      have := List.take_subset levels b.get_bids hxy.1
      rw [Orderbook.get_bids, List.mem_reverse] at this
      exact this
    have hy : y ∈ b.asks := List.take_subset levels b.get_asks hxy.2
    rw [← hse]
    have h1 := hszb x hx
    have h2 := hsza y hy
    have h3 := hprb x hx
    have h4 := hpra y hy
    dsimp only
    have := mul_nonneg (le_of_lt h2) h3
    have := mul_nonneg (le_of_lt h1) h4
    linarith
  constructor
  · rw [Orderbook.vwap_is_finite]
    have := mul_pos hdenom hmult
    exact ne_of_gt this
  · rw [Orderbook.vwap]
    exact div_nonneg hnum (le_of_lt (mul_pos hdenom hmult))

/-- Witness for the amended C9 on a one-level book. -/
theorem C9_witness :
    Orderbook.vwap_is_finite (fun v : ℚ => v)
      { raw_base_units_per_base_lot := 1,
        quote_units_per_raw_base_unit_per_tick := 1,
        bids := [((1 : ℚ), (1 : ℚ))], asks := [((2 : ℚ), (1 : ℚ))] } 1 ∧
    0 ≤ Orderbook.vwap (fun k : ℚ => k) (fun v : ℚ => v)
      { raw_base_units_per_base_lot := 1,
        quote_units_per_raw_base_unit_per_tick := 1,
        bids := [((1 : ℚ), (1 : ℚ))], asks := [((2 : ℚ), (1 : ℚ))] } 1 :=
  C9_vwap_sufficient_depth (fun k : ℚ => k) (fun v : ℚ => v)
    { raw_base_units_per_base_lot := 1,
      quote_units_per_raw_base_unit_per_tick := 1,
      bids := [((1 : ℚ), (1 : ℚ))], asks := [((2 : ℚ), (1 : ℚ))] } 1
    (le_refl 1)
    (by simp [Orderbook.get_bids])
    (by simp [Orderbook.get_asks])
    (by intro x hx; simp at hx; rw [hx]; norm_num)
    (by intro x hx; simp at hx; rw [hx]; norm_num)
    (by intro x hx; simp at hx; rw [hx]; norm_num)
    (by intro x hx; simp at hx; rw [hx]; norm_num)
    (by norm_num)

/-! ## Claim theorems for the event translator -/

theorem foldl_append_out {α β : Type} (g : β → List α) :
    ∀ (l : List β) (init : List α),
      l.foldl (fun acc r => acc ++ g r) init =
        init ++ l.foldl (fun acc r => acc ++ g r) [] := by
  intro l
  induction l with
  | nil => intro init; simp
  | cons r t ih =>
    intro init
    rw [List.foldl_cons, List.foldl_cons, ih (init ++ g r), ih ([] ++ g r)]
    simp

/-- C5 as stated is false: two raw records carrying the same logical
header identity are not merged before decoding.  With a Fill in the first
record and the FillSummary in the second, the code annotates the summary
with trade_direction 0 (its record has no preceding Fill), while the
merged-batch translation the claim describes annotates it with 1. -/
theorem C5_counterexample :
    ((parse_phoenix_events 1 1 0
        [(⟨0, 1, 2, 3, 4⟩, [PhoenixMarketEvent.Fill 0 9 1 100 10 0]),
         (⟨0, 1, 2, 3, 4⟩,
            [PhoenixMarketEvent.FillSummary 1 0 10 1000 1])]).map
      (fun e => match e.details with
        | MarketEventDetails.FillSummary s => some s.trade_direction
        | _ => none)) = [none, some 0] ∧
    ((spec_parse_phoenix_events 1 1 0
        [(⟨0, 1, 2, 3, 4⟩, [PhoenixMarketEvent.Fill 0 9 1 100 10 0]),
         (⟨0, 1, 2, 3, 4⟩,
            [PhoenixMarketEvent.FillSummary 1 0 10 1000 1])]).map
      (fun e => match e.details with
        | MarketEventDetails.FillSummary s => some s.trade_direction
        | _ => none)) = [none, some 1] ∧
    parse_phoenix_events 1 1 0
        [(⟨0, 1, 2, 3, 4⟩, [PhoenixMarketEvent.Fill 0 9 1 100 10 0]),
         (⟨0, 1, 2, 3, 4⟩,
            [PhoenixMarketEvent.FillSummary 1 0 10 1000 1])] ≠
      spec_parse_phoenix_events 1 1 0
        [(⟨0, 1, 2, 3, 4⟩, [PhoenixMarketEvent.Fill 0 9 1 100 10 0]),
         (⟨0, 1, 2, 3, 4⟩,
            [PhoenixMarketEvent.FillSummary 1 0 10 1000 1])] :=
  ⟨by decide, by decide, by decide⟩

/-- C5 amended: the translator processes raw records independently and in
arrival order with no merging by header identity: its output over any
concatenation of record lists is the concatenation of the outputs.  The
trade_direction annotated onto a FillSummary comes from the first Fill of
the same raw record (-1 when that fill consumed a resting bid, 1 for a
resting ask) and defaults to 0 when no Fill precedes it in its own record,
even when a record with the same header identity holds one. -/
theorem C5_per_record_translation :
    (∀ (base_lot_size quote_lot_size sig : ℕ)
        (recs1 recs2 : List (AuditLogHeader × List PhoenixMarketEvent)),
      parse_phoenix_events base_lot_size quote_lot_size sig
          (recs1 ++ recs2) =
        parse_phoenix_events base_lot_size quote_lot_size sig recs1 ++
          parse_phoenix_events base_lot_size quote_lot_size sig recs2) ∧
    ((processRecord 1 1 0 (⟨0, 1, 2, 3, 4⟩,
        [PhoenixMarketEvent.Fill 0 9 1 100 10 0,
         PhoenixMarketEvent.FillSummary 1 0 10 1000 1])).map
      (fun e => match e.details with
        | MarketEventDetails.FillSummary s => some s.trade_direction
        | _ => none)) = [none, some 1] ∧
    ((processRecord 1 1 0 (⟨0, 1, 2, 3, 4⟩,
        [PhoenixMarketEvent.Fill 0 9 2 100 10 0,
         PhoenixMarketEvent.FillSummary 1 0 10 1000 1])).map
      (fun e => match e.details with
        | MarketEventDetails.FillSummary s => some s.trade_direction
        | _ => none)) = [none, some (-1)] ∧
    ((processRecord 1 1 0 (⟨0, 1, 2, 3, 4⟩,
        [PhoenixMarketEvent.FillSummary 1 0 10 1000 1])).map
      (fun e => match e.details with
        | MarketEventDetails.FillSummary s => some s.trade_direction
        | _ => none)) = [some 0] := by
  refine ⟨?_, by decide, by decide, by decide⟩
  intro blo qlo sig recs1 recs2
  rw [parse_phoenix_events, parse_phoenix_events, parse_phoenix_events,
    List.foldl_append,
    foldl_append_out (processRecord blo qlo sig) recs2
      (List.foldl _ [] recs1)]

/-! ## Claim theorems for the packet decoder -/

/-- C6: version-skewed decode fallback for both packet variants.  On any
input, when the current-schema deserialization of the payload succeeds the
decoder returns that packet; when it fails but the deprecated-schema
deserialization succeeds it returns the deprecated fields unchanged with
the two added expiry fields unset; when both fail, or the input is empty
or carries a wrong tag byte, it errors. -/
theorem C6_decode_fallback :
    (∀ (rest : List Byte) (p : LimitPacket),
      deserializeLimitPacket rest = some p →
        decode_limit_packet_data ((1 : Byte) :: rest) = some p) ∧
    (∀ (rest : List Byte) (d : DeprecatedLimitPacket),
      deserializeLimitPacket rest = none →
        deserializeDeprecatedLimitPacket rest = some d →
        decode_limit_packet_data ((1 : Byte) :: rest) = some
          { side := d.side,
            price_in_ticks := d.price_in_ticks,
            num_base_lots := d.num_base_lots,
            self_trade_behavior := d.self_trade_behavior,
            match_limit := d.match_limit,
            client_order_id := d.client_order_id,
            use_only_deposited_funds := d.use_only_deposited_funds,
            last_valid_slot := none,
            last_valid_unix_timestamp_in_seconds := none }) ∧
    (∀ rest : List Byte,
      deserializeLimitPacket rest = none →
        deserializeDeprecatedLimitPacket rest = none →
        decode_limit_packet_data ((1 : Byte) :: rest) = none) ∧
    decode_limit_packet_data [] = none ∧
    (∀ (t : Byte) (rest : List Byte), t.val ≠ 1 →
      decode_limit_packet_data (t :: rest) = none) ∧
    (∀ (rest : List Byte) (p : PostOnlyPacket),
      deserializePostOnlyPacket rest = some p →
        decode_post_only_packet_data ((0 : Byte) :: rest) = some p) ∧
    (∀ (rest : List Byte) (d : DeprecatedPostOnlyPacket),
      deserializePostOnlyPacket rest = none →
        deserializeDeprecatedPostOnlyPacket rest = some d →
        decode_post_only_packet_data ((0 : Byte) :: rest) = some
          { side := d.side,
            price_in_ticks := d.price_in_ticks,
            num_base_lots := d.num_base_lots,
            client_order_id := d.client_order_id,
            reject_post_only := d.reject_post_only,
            use_only_deposited_funds := d.use_only_deposited_funds,
            last_valid_slot := none,
            last_valid_unix_timestamp_in_seconds := none }) ∧
    (∀ rest : List Byte,
      deserializePostOnlyPacket rest = none →
        deserializeDeprecatedPostOnlyPacket rest = none →
        decode_post_only_packet_data ((0 : Byte) :: rest) = none) ∧
    decode_post_only_packet_data [] = none ∧
    (∀ (t : Byte) (rest : List Byte), t.val ≠ 0 →
      decode_post_only_packet_data (t :: rest) = none) := by
  refine ⟨?_, ?_, ?_, rfl, ?_, ?_, ?_, ?_, rfl, ?_⟩
  · intro rest p h
    simp [decode_limit_packet_data, h]
  · intro rest d h1 h2
    simp [decode_limit_packet_data, h1, h2, upgradeDeprecatedLimit]
  · intro rest h1 h2
    simp [decode_limit_packet_data, h1, h2]
  · intro t rest ht
    simp [decode_limit_packet_data, ht]
  · intro rest p h
    simp [decode_post_only_packet_data, h]
  · intro rest d h1 h2
    simp [decode_post_only_packet_data, h1, h2, upgradeDeprecatedPostOnly]
  · intro rest h1 h2
    simp [decode_post_only_packet_data, h1, h2]
  · intro t rest ht
    simp [decode_post_only_packet_data, ht]

/-- Witness for C6: a concrete 36-byte deprecated-schema limit payload
(side Bid, price 5, 7 base lots, self-trade CancelProvide, no match
limit, client order id 0, deposited-funds flag set) fails the current
decode and is upgraded with both expiry fields unset. -/
theorem C6_witness :
    decode_limit_packet_data
      ((1 : Byte) :: (0 : Byte) ::
        ([5, 0, 0, 0, 0, 0, 0, 0] : List Byte) ++
        ([7, 0, 0, 0, 0, 0, 0, 0] : List Byte) ++ [(1 : Byte)] ++
        [(0 : Byte)] ++ List.replicate 16 (0 : Byte) ++ [(1 : Byte)]) =
      some { side := Side.Bid,
             price_in_ticks := 5,
             num_base_lots := 7,
             self_trade_behavior := SelfTradeBehavior.CancelProvide,
             match_limit := none,
             client_order_id := 0,
             use_only_deposited_funds := true,
             last_valid_slot := none,
             last_valid_unix_timestamp_in_seconds := none } :=
  C6_decode_fallback.2.1
    ((0 : Byte) :: ([5, 0, 0, 0, 0, 0, 0, 0] : List Byte) ++
      ([7, 0, 0, 0, 0, 0, 0, 0] : List Byte) ++ [(1 : Byte)] ++
      [(0 : Byte)] ++ List.replicate 16 (0 : Byte) ++ [(1 : Byte)])
    { side := Side.Bid,
      price_in_ticks := 5,
      num_base_lots := 7,
      self_trade_behavior := SelfTradeBehavior.CancelProvide,
      match_limit := none,
      client_order_id := 0,
      use_only_deposited_funds := true }
    (by decide) (by decide)

end Phoenix
